import Mathlib

/-!
# Workload aggregate store

A shallow embedding of `pkg/api/customization/workload/aggregate_store.go`
and the properties of its identifier codec, single-record router, create
defaulting pipeline and fan-out of `List` and `Watch`.

Conventions of the embedding:

* Go strings are Lean `String`s; every string function is written over the
  character list so that it evaluates inside the kernel.  `strings.ToLower` is
  a parameter where the table of `NewAggregateStore` is described for every
  schema ID (`NewAggregateStoreWith`); `toLower` is its restriction to ASCII.
* A Go `map[string]T` is an association list `GoMap T` with unique keys:
  `GoMap.get` is the two-valued index expression `v, ok := m[k]`,
  `GoMap.put` is the assignment `m[k] = v`.  The order of the list is the
  order in which a `range` loop visits the entries.
* `interface{}` values are the inductive type `Value`.
* A backing collection is a handle (`Store`); what a call to it returns is
  given by a `World`, and every operation reports the calls it made.
* The goroutines of `List` and `Watch` are machines: a state, and a step
  function driven by the choices of a scheduler.
-/

namespace Workload

/-! ## Strings -/

/-- Go `strings.ToLower` on strings whose letters are ASCII: `A`..`Z` are
lower-cased, other characters are left as they are.  On a string with a letter
outside ASCII, Go lower-cases that letter too; where such strings matter the
lower-casing function is a parameter (`NewAggregateStoreWith`). -/
def toLower (s : String) : String :=
  String.mk (s.data.map Char.toLower)

/-- Character-wise comparison under simple case folding, for the ASCII
letters. -/
def equalFoldChars : List Char → List Char → Bool
  | [], [] => true
  | c :: cs, d :: ds => (c.toLower == d.toLower) && equalFoldChars cs ds
  | _, _ => false

/-- Go `strings.EqualFold`.  The source calls it only against the constants
`"job"` and `"cronJob"`, whose letters have no case variant outside ASCII. -/
def equalFold (s t : String) : Bool :=
  equalFoldChars s.data t.data

/-- Split a character list at the first occurrence of `sep`: `none` when `sep`
does not occur, otherwise the text before it and the text after it. -/
def cutFirst (sep : Char) : List Char → Option (List Char × List Char)
  | [] => none
  | c :: cs =>
    if c = sep then some ([], cs)
    else
      match cutFirst sep cs with
      | none => none
      | some (pre, post) => some (c :: pre, post)

/-- Go `strings.SplitN(s, sep, 2)` for a one-character separator: one part (the
whole string) when the separator is absent, otherwise the two parts around its
first occurrence. -/
def splitN2 (s : String) (sep : Char) : List String :=
  match cutFirst sep s.data with
  | none => [s]
  | some (pre, post) => [String.mk pre, String.mk post]

/-- Source: `splitTypeAndID`. -/
def splitTypeAndID (id : String) : String × String :=
  match splitN2 id ':' with
  | [p0, p1] => (p0, p1)
  | _ => ("", "")

/-! ## Maps and dynamic values -/

/-- A Go `map[string]T`: an association list with unique keys, in iteration
order. -/
abbrev GoMap (α : Type) := List (String × α)

/-- The index expression `v, ok := m[k]`: `none` when the key is absent. -/
def GoMap.get {α : Type} : GoMap α → String → Option α
  | [], _ => none
  | (k', v) :: rest, k => if k' = k then some v else GoMap.get rest k

/-- The assignment `m[k] = v`: replaces the value of an existing key, adds the
entry otherwise. -/
def GoMap.put {α : Type} : GoMap α → String → α → GoMap α
  | [], k, v => [(k, v)]
  | (k', v') :: rest, k, v =>
    if k' = k then (k, v) :: rest else (k', v') :: GoMap.put rest k v

/-- Modelled from the spec: the Kubernetes type `corev1.LocalObjectReference`
(not under src/), a credential reference, of which only the name is set. -/
structure LocalObjectReference where
  Name : String
deriving DecidableEq, Repr

/-- A Go `interface{}` value as it occurs in a record. -/
inductive Value where
  | null
  | bool (b : Bool)
  | int (n : Int)
  | str (s : String)
  | list (xs : List Value)
  | map (m : List (String × Value))
  | refs (rs : List LocalObjectReference)

/-- A record: `map[string]interface{}`. -/
abbrev Record := GoMap Value

/-- The one-valued index expression `data[k]`: nil when the key is absent. -/
def index (data : Record) (k : String) : Value :=
  match GoMap.get data k with
  | some v => v
  | none => Value.null

/-- The test `val, ok := data[field]; ok && val != nil`. -/
def isSet (data : Record) (field : String) : Bool :=
  match GoMap.get data field with
  | some Value.null => false
  | some _ => true
  | none => false

/-- Rendering of a list of credential references by `fmt`. -/
def fmtRefs : List LocalObjectReference → String
  | [] => ""
  | [r] => "\x7b" ++ r.Name ++ "\x7d"
  | r :: rs => "\x7b" ++ r.Name ++ "\x7d " ++ fmtRefs rs

/-- A value inside a slice or a map: `fmt` prints a nil interface there as
`<nil>` under every verb, any other value as the verb renders it. -/
def fmtNested (v : Value) (rendered : String) : String :=
  match v with
  | .null => "<nil>"
  | _ => rendered

/-- Strings separated by blanks, as `fmt` separates the elements of a slice and
the entries of a map. -/
def joinBlank : List String → String
  | [] => ""
  | [x] => x
  | x :: xs => x ++ " " ++ joinBlank xs

/-- The order of Go strings (`<`), character by character. -/
def lessChars : List Char → List Char → Bool
  | [], [] => false
  | [], _ :: _ => true
  | _ :: _, [] => false
  | c :: cs, d :: ds =>
    if c.toNat < d.toNat then true
    else if d.toNat < c.toNat then false
    else lessChars cs ds

/-- Insertion of a rendered map entry into entries sorted by key. -/
def insertByKey (k r : String) : List (String × String) → List (String × String)
  | [] => [(k, r)]
  | (k', r') :: rest =>
    if lessChars k.data k'.data then (k, r) :: (k', r') :: rest
    else (k', r') :: insertByKey k r rest

/-- Rendered map entries in the order of their keys, the order in which `fmt`
prints the entries of a map. -/
def sortByKey : List (String × String) → List (String × String)
  | [] => []
  | (k, r) :: rest => insertByKey k r (sortByKey rest)

/-- The text `key:value` of every entry, separated by blanks. -/
def joinEntries (entries : List (String × String)) : String :=
  joinBlank (entries.map (fun e => e.1 ++ ":" ++ e.2))

mutual
/-- The `fmt` verb `%s` on a value.  Map entries are printed in key order. -/
def fmtS : Value → String
  | .null => "%!s(<nil>)"
  | .bool b => if b then "%!s(bool=true)" else "%!s(bool=false)"
  | .int n => "%!s(int=" ++ toString n ++ ")"
  | .str s => s
  | .list xs => "[" ++ joinBlank (fmtSList xs) ++ "]"
  | .map m => "map[" ++ joinEntries (sortByKey (fmtSMap m)) ++ "]"
  | .refs rs => "[" ++ fmtRefs rs ++ "]"
/-- The elements of a slice under `%s`; a nil element prints as `<nil>`. -/
def fmtSList : List Value → List String
  | [] => []
  | x :: xs => fmtNested x (fmtS x) :: fmtSList xs
/-- The entries of a map under `%s`, each key with its rendered value; a nil
value prints as `<nil>`. -/
def fmtSMap : List (String × Value) → List (String × String)
  | [] => []
  | (k, v) :: m => (k, fmtNested v (fmtS v)) :: fmtSMap m
end

mutual
/-- Go `fmt.Sprint` (the verb `%v`) on a value.  Map entries are printed in key
order. -/
def fmtV : Value → String
  | .null => "<nil>"
  | .bool b => if b then "true" else "false"
  | .int n => toString n
  | .str s => s
  | .list xs => "[" ++ joinBlank (fmtVList xs) ++ "]"
  | .map m => "map[" ++ joinEntries (sortByKey (fmtVMap m)) ++ "]"
  | .refs rs => "[" ++ fmtRefs rs ++ "]"
/-- The elements of a slice under `%v`. -/
def fmtVList : List Value → List String
  | [] => []
  | x :: xs => fmtNested x (fmtV x) :: fmtVList xs
/-- The entries of a map under `%v`, each key with its rendered value. -/
def fmtVMap : List (String × Value) → List (String × String)
  | [] => []
  | (k, v) :: m => (k, fmtNested v (fmtV v)) :: fmtVMap m
end

/-! ## Helpers of the norman library, on `Value` -/

/-- Modelled from the spec: `convert.IsEmpty` of the norman library (not under
src/), the test "empty/absent" of selector assignment: nil (also what an absent
key reads as), the empty string, the integer zero, `false`, an empty map and an
empty slice are empty. -/
def convert_IsEmpty : Value → Bool
  | .null => true
  | .str s => s = ""
  | .int n => n = 0
  | .bool b => !b
  | .map m => m.isEmpty
  | .list xs => xs.isEmpty
  | .refs _ => false

/-- Modelled from the spec: `convert.ToMapInterface` of the norman library (not
under src/): the value itself when it is a `map[string]interface{}`, the nil
map otherwise. -/
def convert_ToMapInterface : Value → Option (GoMap Value)
  | .map m => some m
  | _ => none

/-- Modelled from the spec: `convert.Singular` of the norman library (not under
src/), used by `convert.ToString`: the first element of a slice (nil for an
empty slice), any other value itself. -/
def convert_Singular : Value → Value
  | .list [] => Value.null
  | .list (x :: _) => x
  | v => v

/-- Modelled from the spec: `convert.ToString` of the norman library (not under
src/), which reads the image of a container: the empty string for nil,
`fmt.Sprint` of the singular value otherwise. -/
def convert_ToString (value : Value) : String :=
  match convert_Singular value with
  | .null => ""
  | single => fmtV single

/-- Modelled from the spec: the loop of `convert.ToMapSlice` (norman library,
not under src/) over the elements of a `[]interface{}`: the maps in order, or
nil as soon as one element is not a map. -/
def toMapSliceAux : List Value → Option (List Record)
  | [] => some []
  | .map m :: rest =>
    match toMapSliceAux rest with
    | some ms => some (m :: ms)
    | none => none
  | _ :: _ => none

/-- Modelled from the spec: `convert.ToMapSlice` of the norman library (not
under src/): a slice of maps as a sequence of records, nil for anything
else. -/
def convert_ToMapSlice : Value → List Record
  | .list xs =>
    match toMapSliceAux xs with
    | some ms => ms
    | none => []
  | _ => []

/-- Modelled from the spec: `values.GetValue(data, key)` of the norman library
(not under src/) with a single key: the value under the key, nil when
absent. -/
def values_GetValue (data : Record) (key : String) : Value :=
  index data key

/-- Modelled from the spec: `values.GetSlice(data, key)` of the norman library
(not under src/) with a single key: the sequence of records under the key, nil
when the key is absent. -/
def values_GetSlice (data : Record) (key : String) : List Record :=
  match GoMap.get data key with
  | some v => convert_ToMapSlice v
  | none => []

/-- Modelled from the spec: `values.PutValue(data, val, key)` of the norman
library (not under src/) with a single key: writes the value into the
payload. -/
def values_PutValue (data : Record) (val : Value) (key : String) : Record :=
  GoMap.put data key val

/-! ## Schemas, backing collections and the world around the store -/

/-- Modelled from the spec: the capability handle of a backing collection, a
non-nil `types.Store` of the norman library (not under src/). -/
structure Store where
  handle : Nat
deriving DecidableEq, Repr

/-- Modelled from the spec: the schema descriptor `types.Schema` of the norman
library (not under src/), with the two fields the aggregate store reads: the
kind name and the handle of its backing collection. -/
structure Schema where
  ID : String
  Store : Store
deriving DecidableEq, Repr

/-- Modelled from the spec: `httperror.ErrorCode` of the norman library (not
under src/). -/
structure ErrorCode where
  Code : String
  Status : Nat
deriving DecidableEq, Repr

/-- Modelled from the spec: the error code `httperror.NotFound` of the norman
library (not under src/). -/
def NotFound : ErrorCode := ⟨"NotFound", 404⟩

/-- A Go `error` value: an `httperror.APIError`, or any other error. -/
inductive GoError where
  | apiError (code : ErrorCode) (message : String)
  | other (text : String)
deriving DecidableEq, Repr

/-- Modelled from the spec: `httperror.NewAPIError` of the norman library (not
under src/): the error value with the given code and message. -/
def NewAPIError (code : ErrorCode) (message : String) : GoError :=
  GoError.apiError code message

/-- A call that leaves the aggregate store: an operation of a backing
collection, with the schema pointer (nil when the table has none), payload and
id it is given, or one of the two list queries on the credential catalog.  The
request context is handed on as received and is left out. -/
inductive Call where
  | byID (store : Store) (schema : Option Schema) (id : String)
  | create (store : Store) (schema : Option Schema) (data : Record)
  | update (store : Store) (schema : Option Schema) (data : Record) (id : String)
  | delete (store : Store) (schema : Option Schema) (id : String)
  | listNamespacedDockerCredential
  | listDockerCredential

/-- What a backing collection returns: a record (or nil) and an error (or
nil). -/
structure Reply where
  record : Option Record
  err : Option GoError

/-- Modelled from the spec: a registry entry of a docker credential, the
marker type `RegistryCredential` of the generated client (not under src/). -/
structure RegistryCredential where
  Username : String
  Password : String
deriving DecidableEq, Repr

/-- Modelled from the spec: the part of a `DockerCredential` or
`NamespacedDockerCredential` of the generated client (not under src/) that
`getCreds` reads: a name and a map from registry domain to marker. -/
structure DockerCredential where
  Name : String
  Registries : GoMap RegistryCredential

/-- What `Watch` of a backing collection returns: an error, no stream and no
error, or a stream.  A stream is given by the events it delivers, in order,
and by whether the collection closes it after them (`closes`) or leaves it
open and silent. -/
inductive WatchReply where
  | failed (err : GoError)
  | nothing
  | stream (events : List Record) (closes : Bool)

/-- The collaborators: the replies of the backing collections, the outcome of
the two credential list queries, image reference normalization
(`reference.ParseNormalizedNamed` followed by `reference.Domain`; `none` when
the image does not parse), and what `List` and `Watch` of a backing collection
return for a schema pointer (the query options are handed on as received and
are left out). -/
structure World where
  reply : Call → Reply
  namespacedCreds : Except GoError (List DockerCredential)
  creds : Except GoError (List DockerCredential)
  normalizedDomain : String → Option String
  list : Store → Option Schema → Except GoError (List Record)
  watch : Store → Schema → WatchReply

/-- What an operation of the aggregate store returns, with the calls it made in
order. -/
structure Outcome where
  record : Option Record
  err : Option GoError
  calls : List Call

/-- A run-time fault of the Go program. -/
inductive Fault where
  | nilDereference
deriving DecidableEq, Repr

/-! ## The aggregate store -/

/-- Source: constant `SelectorLabel`. -/
def SelectorLabel : String := "workload.user.cattle.io/workloadselector"

/-- Modelled from the spec: the constant `client.DeploymentType` of the
generated project client (not under src/), the fixed primary kind. -/
def DeploymentType : String := "deployment"

/-- Source: `AggregateStore`. -/
structure AggregateStore where
  Stores : GoMap Store
  Schemas : GoMap Schema
  FieldToSchemaID : GoMap String

/-- Source: `NewAggregateStore`.  The Go library function `strings.ToLower`
is the parameter `lower`. -/
def NewAggregateStoreWith (lower : String → String) (schemas : List Schema) :
    AggregateStore :=
  schemas.foldl
    (fun a schema =>
      { Schemas := GoMap.put a.Schemas (lower schema.ID) schema
        Stores := GoMap.put a.Stores (lower schema.ID) schema.Store
        FieldToSchemaID :=
          GoMap.put a.FieldToSchemaID (schema.ID ++ "Config") (lower schema.ID) })
    { Stores := [], Schemas := [], FieldToSchemaID := [] }

/-- Source: `NewAggregateStore`, with `toLower` for `strings.ToLower`: the table
of schemas whose IDs have no letter outside ASCII. -/
def NewAggregateStore (schemas : List Schema) : AggregateStore :=
  NewAggregateStoreWith toLower schemas

/-- The last schema of the list whose ID, lower-cased by `lower`, is `k`. -/
def lastLowered (lower : String → String) (schemas : List Schema) (k : String) :
    Option Schema :=
  schemas.reverse.find? (fun s => lower s.ID = k)

/-- The last schema of the list whose ID, lower-cased by `toLower`, is `k`. -/
def lastWithKey (schemas : List Schema) (k : String) : Option Schema :=
  lastLowered toLower schemas k

/-- Source: `AggregateStore.getStore`. -/
def getStore (a : AggregateStore) (id : String) : Except GoError (Store × String) :=
  let typeName := (splitTypeAndID id).1
  match GoMap.get a.Stores typeName with
  | none => Except.error (NewAPIError NotFound ("failed to find type " ++ typeName))
  | some store => Except.ok (store, typeName)

/-- Source: `AggregateStore.ByID`. -/
def ByID (a : AggregateStore) (w : World) (_schema : Option Schema) (id : String) :
    Outcome :=
  match getStore a id with
  | Except.error err => { record := none, err := some err, calls := [] }
  | Except.ok (store, schemaType) =>
    let shortID := (splitTypeAndID id).2
    let c := Call.byID store (GoMap.get a.Schemas schemaType) shortID
    { record := (w.reply c).record, err := (w.reply c).err, calls := [c] }

/-- Source: `AggregateStore.Update`. -/
def Update (a : AggregateStore) (w : World) (_schema : Option Schema) (data : Record)
    (id : String) : Outcome :=
  match getStore a id with
  | Except.error err => { record := none, err := some err, calls := [] }
  | Except.ok (store, schemaType) =>
    let shortID := (splitTypeAndID id).2
    let c := Call.update store (GoMap.get a.Schemas schemaType) data shortID
    { record := (w.reply c).record, err := (w.reply c).err, calls := [c] }

/-- Source: `AggregateStore.Delete`. -/
def Delete (a : AggregateStore) (w : World) (_schema : Option Schema) (id : String) :
    Outcome :=
  match getStore a id with
  | Except.error err => { record := none, err := some err, calls := [] }
  | Except.ok (store, schemaType) =>
    let shortID := (splitTypeAndID id).2
    let c := Call.delete store (GoMap.get a.Schemas schemaType) shortID
    { record := (w.reply c).record, err := (w.reply c).err, calls := [c] }

/-! ## The create defaulting pipeline -/

/-- The test `strings.EqualFold(schemaID, "job") ||
strings.EqualFold(schemaID, "cronJob")` of `setSelector` and
`setWorkloadSpecificDefaults`. -/
def isJob (schemaID : String) : Bool :=
  equalFold schemaID "job" || equalFold schemaID "cronJob"

/-- Source: `resolveWorkloadID`. -/
def resolveWorkloadID (schemaID : String) (data : Record) : String :=
  schemaID ++ "-" ++ fmtS (index data "namespaceId") ++ "-" ++ fmtS (index data "name")

/-- The statement `m := convert.ToMapInterface(v); if m == nil { m = make(..) }`
of `setSelector`. -/
def mapOrNew (v : Value) : GoMap Value :=
  match convert_ToMapInterface v with
  | some m => m
  | none => []

/-- Source: `setSelector`. -/
def setSelector (schemaID : String) (data : Record) : Record :=
  let setSelector := convert_IsEmpty (index data "selector") && !isJob schemaID
  if setSelector then
    let workloadID := resolveWorkloadID schemaID data
    let data := GoMap.put data "selector"
      (Value.map [("matchLabels", Value.map [(SelectorLabel, Value.str workloadID)])])
    let workloadLabels := mapOrNew (index data "workloadLabels")
    let workloadLabels := GoMap.put workloadLabels SelectorLabel (Value.str workloadID)
    let data := GoMap.put data "workloadLabels" (Value.map workloadLabels)
    let labels := mapOrNew (index data "labels")
    let labels := GoMap.put labels SelectorLabel (Value.str workloadID)
    GoMap.put data "labels" (Value.map labels)
  else data

/-- Source: `setWorkloadSpecificDefaults`. -/
def setWorkloadSpecificDefaults (schemaID : String) (data : Record) : Record :=
  if isJob schemaID then
    match GoMap.get data "restartPolicy" with
    | none => GoMap.put data "restartPolicy" (Value.str "OnFailure")
    | some _ => data
  else data

/-- Source: `store`.  The loop `for registry := range registries`. -/
def store : GoMap RegistryCredential → GoMap (List LocalObjectReference) → String →
    GoMap (List LocalObjectReference)
  | [], domainToCreds, _ => domainToCreds
  | (registry, _) :: rest, domainToCreds, name =>
    let secretRef : LocalObjectReference := { Name := name }
    match GoMap.get domainToCreds registry with
    | some l => store rest (GoMap.put domainToCreds registry (l ++ [secretRef])) name
    | none => store rest (GoMap.put domainToCreds registry [secretRef]) name

/-- The loop `for _, cred := range creds { store(cred.Registries, domainToCreds,
cred.Name) }` of `getCreds`. -/
def storeAll : List DockerCredential → GoMap (List LocalObjectReference) →
    GoMap (List LocalObjectReference)
  | [], domainToCreds => domainToCreds
  | cred :: rest, domainToCreds =>
    storeAll rest (store cred.Registries domainToCreds cred.Name)

/-- Source: `getCreds`.  A failed list query contributes nothing. -/
def getCreds (w : World) : GoMap (List LocalObjectReference) :=
  let domainToCreds : GoMap (List LocalObjectReference) := []
  let domainToCreds :=
    match w.namespacedCreds with
    | Except.ok namespacedCreds => storeAll namespacedCreds domainToCreds
    | Except.error _ => domainToCreds
  match w.creds with
  | Except.ok creds => storeAll creds domainToCreds
  | Except.error _ => domainToCreds

/-- The calls `getCreds` makes: the two list queries, in this order. -/
def getCredsCalls : List Call :=
  [Call.listNamespacedDockerCredential, Call.listDockerCredential]

/-- Source: `getDomain`. -/
def getDomain (w : World) (image : String) : String :=
  match w.normalizedDomain image with
  | none => ""
  | some domain => if domain = "docker.io" then "index.docker.io" else domain

/-- The type assertion `v.([]corev1.LocalObjectReference)`, nil on failure. -/
def asRefs : Value → List LocalObjectReference
  | .refs rs => rs
  | _ => []

/-- The loop over the containers in `setSecrets`. -/
def collectSecrets (w : World) (domainToCreds : GoMap (List LocalObjectReference)) :
    List Record → List LocalObjectReference → List LocalObjectReference
  | [], imagePullSecrets => imagePullSecrets
  | container :: rest, imagePullSecrets =>
    let image := convert_ToString (index container "image")
    if image ≠ "" then
      match GoMap.get domainToCreds (getDomain w image) with
      | some secrets => collectSecrets w domainToCreds rest (imagePullSecrets ++ secrets)
      | none => collectSecrets w domainToCreds rest imagePullSecrets
    else collectSecrets w domainToCreds rest imagePullSecrets

/-- Source: `setSecrets`.  Returns the payload and the catalog calls made. -/
def setSecrets (w : World) (data : Record) : Record × List Call :=
  match values_GetValue data "imagePullSecrets" with
  | .null =>
    let containers := values_GetSlice data "containers"
    if containers.length > 0 then
      let imagePullSecrets := asRefs (index data "imagePullSecrets")
      let domainToCreds := getCreds w
      let imagePullSecrets := collectSecrets w domainToCreds containers imagePullSecrets
      if imagePullSecrets ≠ [] then
        (values_PutValue data (Value.refs imagePullSecrets) "imagePullSecrets", getCredsCalls)
      else (data, getCredsCalls)
    else (data, [])
  | _ => (data, [])

/-- The loop `for field, schemaID := range a.FieldToSchemaID` of `Create`: the
schema ID of the first visited entry whose field is set in the payload. -/
def firstHint (data : Record) : GoMap String → Option String
  | [] => none
  | (field, schemaID) :: rest =>
    if isSet data field then some schemaID else firstHint data rest

/-- The schema and store `Create` selects (`toSchema`, `toStore`); each is nil
when the table has no entry. -/
def createTarget (a : AggregateStore) (data : Record) : Option Schema × Option Store :=
  match firstHint data a.FieldToSchemaID with
  | some schemaID => (GoMap.get a.Schemas schemaID, GoMap.get a.Stores schemaID)
  | none => (GoMap.get a.Schemas DeploymentType, GoMap.get a.Stores DeploymentType)

/-- The three shaping steps of `Create`, in order, with the catalog calls
made. -/
def shape (w : World) (schemaID : String) (data : Record) : Record × List Call :=
  let data := setSelector schemaID data
  let data := setWorkloadSpecificDefaults schemaID data
  setSecrets w data

/-- Source: `AggregateStore.Create`.  Reading `toSchema.ID` of a nil schema, or
calling `Create` on a nil store, is a fault. -/
def Create (a : AggregateStore) (w : World) (_schema : Option Schema) (data : Record) :
    Except Fault Outcome :=
  match createTarget a data with
  | (none, _) => Except.error Fault.nilDereference
  | (some toSchema, toStore) =>
    let shaped := shape w toSchema.ID data
    match toStore with
    | none => Except.error Fault.nilDereference
    | some st =>
      let c := Call.create st (some toSchema) shaped.1
      Except.ok
        { record := (w.reply c).record, err := (w.reply c).err, calls := shaped.2 ++ [c] }

/-- The same store with the entries of its field table visited in the order
`fields` by a `range` loop. -/
def withFieldOrder (a : AggregateStore) (fields : GoMap String) : AggregateStore :=
  { Stores := a.Stores, Schemas := a.Schemas, FieldToSchemaID := fields }

/-- The references one container contributes to `imagePullSecrets`, in the
words of the specification: the index entries of the registry domain of its
image, when the image is non-empty and that domain has entries; nothing
otherwise. -/
def containerSecrets (w : World) (domainToCreds : GoMap (List LocalObjectReference))
    (container : Record) : List LocalObjectReference :=
  if convert_ToString (index container "image") = "" then []
  else
    match GoMap.get domainToCreds (getDomain w (convert_ToString (index container "image"))) with
    | some secrets => secrets
    | none => []

/-! ## Fan-out: List

`List` starts one goroutine per entry of `Stores`; the goroutines hand their
items one by one to the loop of `List` over an unbuffered channel, under an
`errgroup` whose context is derived from the request context.  The embedding
is a machine: a state holds where every goroutine stands, the items the loop
has received, the first error of the group and the error of the context; a
schedule, a list of choices, says which goroutine moves next.  The loop is
always ready to receive, and a call of a backing collection returns. -/

/-- Where a goroutine of `List` stands: before the call of `store.List`, in the
loop over the data at item number `next` (at the `select`), or returned. -/
inductive ListPc where
  | calling
  | sending (data : List Record) (next : Nat)
  | returned (err : Option GoError)

/-- A goroutine started by `submit(schema, store)`. -/
structure ListTask where
  schema : Option Schema
  store : Store
  pc : ListPc

/-- The state of a run of `List`: the goroutines, the `result` slice, the error
`g.err` of the group, and `ctx.Err()` (nil while the context is live). -/
structure ListState where
  tasks : List ListTask
  result : List Record
  err : Option GoError
  ctxErr : Option GoError

/-- A choice of the scheduler: goroutine `i` takes its next step (in the
`select`, the send); goroutine `i` takes the case `ctx.Done()` of the `select`;
or the caller's request context is cancelled for the given reason. -/
inductive ListChoice where
  | advance (i : Nat)
  | abandon (i : Nat)
  | cancel (reason : GoError)

/-- The error `context.Canceled`. -/
def contextCanceled : GoError := GoError.other "context canceled"

/-- What one step of a goroutine does: its next position, the item it hands to
the loop, the non-nil error it returns. -/
structure ListMove where
  pc : ListPc
  item : Option Record
  failed : Option GoError

/-- The next step of a goroutine of `List`: call the collection; send the next
item; or leave the loop and return nil. -/
def advanceTask (w : World) (t : ListTask) : Option ListMove :=
  match t.pc with
  | ListPc.calling =>
    match w.list t.store t.schema with
    | Except.error e => some { pc := ListPc.returned (some e), item := none, failed := some e }
    | Except.ok data => some { pc := ListPc.sending data 0, item := none, failed := none }
  | ListPc.sending data next =>
    match data[next]? with
    | some item => some { pc := ListPc.sending data (next + 1), item := some item, failed := none }
    | none => some { pc := ListPc.returned none, item := none, failed := none }
  | ListPc.returned _ => none

/-- The case `<-ctx.Done()` of the `select`: a goroutine with an item to send
returns `ctx.Err()` once the context is done. -/
def abandonTask (ctxErr : Option GoError) (t : ListTask) : Option ListMove :=
  match t.pc, ctxErr with
  | ListPc.sending data next, some e =>
    if next < data.length then
      some { pc := ListPc.returned (some e), item := none, failed := some e }
    else none
  | _, _ => none

/-- The `errgroup` on the return of a goroutine: the first non-nil error is kept
and cancels the context. -/
def groupReturn (err ctxErr : Option GoError) (failed : Option GoError) :
    Option GoError × Option GoError :=
  match failed, err with
  | some e, none =>
    (some e, match ctxErr with
             | some c => some c
             | none => some contextCanceled)
  | _, _ => (err, ctxErr)

/-- The state after goroutine `i` made the move `m`. -/
def applyMove (s : ListState) (i : Nat) (t : ListTask) (m : ListMove) : ListState :=
  { tasks := s.tasks.set i { schema := t.schema, store := t.store, pc := m.pc }
    result :=
      match m.item with
      | some item => s.result ++ [item]
      | none => s.result
    err := (groupReturn s.err s.ctxErr m.failed).1
    ctxErr := (groupReturn s.err s.ctxErr m.failed).2 }

/-- One step of the machine; `none` when the choice is not enabled. -/
def listStep (w : World) (s : ListState) : ListChoice → Option ListState
  | ListChoice.advance i =>
    match s.tasks[i]? with
    | none => none
    | some t =>
      match advanceTask w t with
      | none => none
      | some m => some (applyMove s i t m)
  | ListChoice.abandon i =>
    match s.tasks[i]? with
    | none => none
    | some t =>
      match abandonTask s.ctxErr t with
      | none => none
      | some m => some (applyMove s i t m)
  | ListChoice.cancel reason =>
    match s.ctxErr with
    | none => some { tasks := s.tasks, result := s.result, err := s.err, ctxErr := some reason }
    | some _ => none

/-- The run of a schedule; `none` when it holds a choice that is not enabled. -/
def listRun (w : World) : ListState → List ListChoice → Option ListState
  | s, [] => some s
  | s, c :: rest =>
    match listStep w s c with
    | some s' => listRun w s' rest
    | none => none

/-- The state in which `List` starts its goroutines: one per entry of `Stores`,
with the schema the table holds under the same key. -/
def listStart (a : AggregateStore) : ListState :=
  { tasks := a.Stores.map
      (fun e => { schema := GoMap.get a.Schemas e.1, store := e.2, pc := ListPc.calling })
    result := []
    err := none
    ctxErr := none }

/-- Whether a goroutine has returned. -/
def ListTask.hasReturned (t : ListTask) : Bool :=
  match t.pc with
  | ListPc.returned _ => true
  | _ => false

/-- Whether every goroutine has returned: `g.Wait()` returns, the channel is
closed and the loop of `List` ends. -/
def ListState.allReturned (s : ListState) : Bool :=
  s.tasks.all ListTask.hasReturned

/-- Source: `AggregateStore.List`, under a schedule: what `List` returns, the
`result` slice and `g.Wait()`, when the schedule is a run in which every
goroutine returns; `none` when the schedule is not such a run. -/
def aggregateList (a : AggregateStore) (w : World) (schedule : List ListChoice) :
    Option (List Record × Option GoError) :=
  match listRun w (listStart a) schedule with
  | some s => if s.allReturned then some (s.result, s.err) else none
  | none => none

/-- Whether a choice is the cancellation of the caller's request context. -/
def ListChoice.isCancel : ListChoice → Bool
  | ListChoice.cancel _ => true
  | _ => false

/-- The records a `List` call of a backing collection returned, none when it
failed. -/
def recordsOf : Except GoError (List Record) → List Record
  | Except.ok data => data
  | Except.error _ => []

/-- The records the goroutine of a task gets from its backing collection. -/
def ListTask.data (w : World) (t : ListTask) : List Record :=
  recordsOf (w.list t.store t.schema)

/-- The items a goroutine has handed to the loop so far. -/
def ListTask.sent (w : World) (t : ListTask) : List Record :=
  match t.pc with
  | ListPc.calling => []
  | ListPc.sending data next => data.take next
  | ListPc.returned _ => t.data w

/-- The number of steps a goroutine can still take. -/
def ListTask.fuel (w : World) (t : ListTask) : Nat :=
  match t.pc with
  | ListPc.calling => (t.data w).length + 2
  | ListPc.sending data next => (data.length - next) + 1
  | ListPc.returned _ => 0

/-- The number of steps a run can still take. -/
def ListState.fuel (w : World) (s : ListState) : Nat :=
  (s.tasks.map (ListTask.fuel w)).sum +
    (match s.ctxErr with
     | none => 1
     | some _ => 0)

/-- The store and the schema pointer a goroutine was started with. -/
def ListTask.key (t : ListTask) : Store × Option Schema :=
  (t.store, t.schema)

/-- A goroutine that has not failed stands where the reply of its backing
collection puts it. -/
def ListTask.onTrack (w : World) (t : ListTask) : Prop :=
  match t.pc with
  | ListPc.calling => True
  | ListPc.sending data next =>
    w.list t.store t.schema = Except.ok data ∧ next ≤ data.length
  | ListPc.returned err => err = none

/-- A goroutine is in the loop, or has returned nil, only after its backing
collection returned data. -/
def ListTask.consistent (w : World) (t : ListTask) : Prop :=
  match t.pc with
  | ListPc.calling => True
  | ListPc.sending data _ => w.list t.store t.schema = Except.ok data
  | ListPc.returned none => ∃ data, w.list t.store t.schema = Except.ok data
  | ListPc.returned (some _) => True

/-- Invariant of the runs of `List` in which no backing collection fails and
the caller does not cancel: no error, a live context, every goroutine on
track, and the received items are the sent items of all goroutines, those of
each goroutine in its own order. -/
def ListState.okInv (w : World) (s : ListState) : Prop :=
  s.err = none ∧ s.ctxErr = none ∧
  (∀ t ∈ s.tasks, ∃ data, w.list t.store t.schema = Except.ok data) ∧
  (∀ t ∈ s.tasks, t.onTrack w) ∧
  s.result.Perm (s.tasks.flatMap (ListTask.sent w)) ∧
  (∀ t ∈ s.tasks, (t.sent w).Sublist s.result)

/-- Invariant of the runs of `List` in which the caller does not cancel: a
goroutine returned an error only after the group recorded one, the recorded
error is an error of a backing collection, and the context is done only after
an error was recorded. -/
def ListState.errInv (w : World) (s : ListState) : Prop :=
  (∀ t ∈ s.tasks, ∀ e, t.pc = ListPc.returned (some e) → s.err.isSome = true) ∧
  (∀ e, s.err = some e → ∃ k ∈ s.tasks.map ListTask.key, w.list k.1 k.2 = Except.error e) ∧
  (s.ctxErr.isSome = true → s.err.isSome = true) ∧
  (∀ t ∈ s.tasks, t.consistent w)

/-- Whether a `List` call of a backing collection returned without error. -/
def succeeded : Except GoError (List Record) → Bool
  | Except.ok _ => true
  | Except.error _ => false

/-- What `List` of the backing collection of an entry of `Stores` returns, for
the schema the table holds under the same key. -/
def backingList (a : AggregateStore) (w : World) (e : String × Store) :
    Except GoError (List Record) :=
  w.list e.2 (GoMap.get a.Schemas e.1)

/-! ## Fan-out: Watch

`Watch` starts one goroutine per entry of `Schemas` (`streamStore`); each
subscribes to its backing collection and relays every event to the shared
channel `events`; a further goroutine closes `events` once all have returned.
`Watch` itself returns at once.  The embedding is a machine as for `List`; the
reader of `events` is always ready to receive.  The error of the group is read
by nobody, and its context reaches only the backing collections, whose streams
are given by the world. -/

/-- Where a goroutine of `streamStore` stands: before the call of `Watch` of
the backing collection, in the loop over the stream at event number `next`, or
returned. -/
inductive WatchPc where
  | subscribing
  | relaying (events : List Record) (closes : Bool) (next : Nat)
  | returned (err : Option GoError)

/-- A goroutine started by `streamStore` for a schema. -/
structure WatchTask where
  schema : Schema
  pc : WatchPc

/-- The state of a watch: the goroutines, the events the reader has received
from the channel `events`, in order, and whether the channel is closed. -/
structure WatchState where
  tasks : List WatchTask
  events : List Record
  closed : Bool

/-- A choice of the scheduler: goroutine `i` takes its next step, or the closing
goroutine closes the channel. -/
inductive WatchChoice where
  | advance (i : Nat)
  | close

/-- The error `errors.New("disconnect")`. -/
def disconnect : GoError := GoError.other "disconnect"

/-- What one step of a goroutine of `streamStore` does: its next position and the
event it relays. -/
structure WatchMove where
  pc : WatchPc
  event : Option Record

/-- Source: `streamStore`, the next step of its goroutine: subscribe (an error
or a nil stream ends the goroutine, with that error or nil); relay the next
event; or, when the stream is closed, return "disconnect".  No step is enabled
while an open stream is silent. -/
def streamStore (w : World) (t : WatchTask) : Option WatchMove :=
  match t.pc with
  | WatchPc.subscribing =>
    match w.watch t.schema.Store t.schema with
    | WatchReply.failed e => some { pc := WatchPc.returned (some e), event := none }
    | WatchReply.nothing => some { pc := WatchPc.returned none, event := none }
    | WatchReply.stream events closes =>
      some { pc := WatchPc.relaying events closes 0, event := none }
  | WatchPc.relaying events closes next =>
    match events[next]? with
    | some e => some { pc := WatchPc.relaying events closes (next + 1), event := some e }
    | none =>
      if closes then some { pc := WatchPc.returned (some disconnect), event := none }
      else none
  | WatchPc.returned _ => none

/-- Whether a goroutine has returned. -/
def WatchTask.hasReturned (t : WatchTask) : Bool :=
  match t.pc with
  | WatchPc.returned _ => true
  | _ => false

/-- Whether every goroutine has returned: `readerGroup.Wait()` returns. -/
def WatchState.allReturned (s : WatchState) : Bool :=
  s.tasks.all WatchTask.hasReturned

/-- The state after goroutine `i` made the move `m`. -/
def applyWatchMove (s : WatchState) (i : Nat) (t : WatchTask) (m : WatchMove) :
    WatchState :=
  { tasks := s.tasks.set i { schema := t.schema, pc := m.pc }
    events :=
      match m.event with
      | some e => s.events ++ [e]
      | none => s.events
    closed := s.closed }

/-- One step of the machine; `none` when the choice is not enabled. -/
def watchStep (w : World) (s : WatchState) : WatchChoice → Option WatchState
  | WatchChoice.advance i =>
    match s.tasks[i]? with
    | none => none
    | some t =>
      match streamStore w t with
      | none => none
      | some m => some (applyWatchMove s i t m)
  | WatchChoice.close =>
    if s.allReturned && !s.closed then
      some { tasks := s.tasks, events := s.events, closed := true }
    else none

/-- The run of a schedule; `none` when it holds a choice that is not enabled. -/
def watchRun (w : World) : WatchState → List WatchChoice → Option WatchState
  | s, [] => some s
  | s, c :: rest =>
    match watchStep w s c with
    | some s' => watchRun w s' rest
    | none => none

/-- The state in which `Watch` starts its goroutines: one per entry of
`Schemas`. -/
def watchStart (a : AggregateStore) : WatchState :=
  { tasks := a.Schemas.map (fun e => { schema := e.2, pc := WatchPc.subscribing })
    events := []
    closed := false }

/-- Source: `AggregateStore.Watch`: the channel `events`, as the machine that
feeds it, and the nil error. -/
def Watch (a : AggregateStore) (_w : World) : WatchState × Option GoError :=
  (watchStart a, none)

/-- The events of the stream a `Watch` call of a backing collection returned,
none when it returned an error or no stream. -/
def eventsOf : WatchReply → List Record
  | WatchReply.stream events _ => events
  | _ => []

/-- Whether a subscription ends: the backing collection returned an error, no
stream, or a stream that it closes. -/
def subscriptionEnds : WatchReply → Bool
  | WatchReply.stream _ closes => closes
  | _ => true

/-- What `Watch` of the backing collection of a schema returns. -/
def backingWatch (w : World) (schema : Schema) : WatchReply :=
  w.watch schema.Store schema

/-- The events a goroutine has relayed so far. -/
def WatchTask.relayed (w : World) (t : WatchTask) : List Record :=
  match t.pc with
  | WatchPc.subscribing => []
  | WatchPc.relaying events _ next => events.take next
  | WatchPc.returned _ => eventsOf (backingWatch w t.schema)

/-- A goroutine stands where the reply of its backing collection puts it. -/
def WatchTask.onTrack (w : World) (t : WatchTask) : Prop :=
  match t.pc with
  | WatchPc.subscribing => True
  | WatchPc.relaying events closes next =>
    backingWatch w t.schema = WatchReply.stream events closes ∧ next ≤ events.length
  | WatchPc.returned _ => True

/-- The number of steps a goroutine can still take. -/
def WatchTask.fuel (w : World) (t : WatchTask) : Nat :=
  match t.pc with
  | WatchPc.subscribing => (eventsOf (backingWatch w t.schema)).length + 2
  | WatchPc.relaying events _ next => (events.length - next) + 1
  | WatchPc.returned _ => 0

/-- The number of steps a run can still take. -/
def WatchState.fuel (w : World) (s : WatchState) : Nat :=
  (s.tasks.map (WatchTask.fuel w)).sum + (if s.closed then 0 else 1)

/-- Invariant of the runs of a watch: every goroutine is on track, the received
events are the relayed events of all goroutines, those of each goroutine in
its own order, and the channel is closed only when all goroutines have
returned. -/
def WatchState.inv (w : World) (s : WatchState) : Prop :=
  (∀ t ∈ s.tasks, t.onTrack w) ∧
  s.events.Perm (s.tasks.flatMap (WatchTask.relayed w)) ∧
  (∀ t ∈ s.tasks, (t.relayed w).Sublist s.events) ∧
  (s.closed = true → s.allReturned = true)

/-- The credentials a list query contributes: those it returns, none when it
fails. -/
def credsOf : Except GoError (List DockerCredential) → List DockerCredential
  | Except.ok creds => creds
  | Except.error _ => []

/-- The references, in catalog order, of the credentials that name the registry
domain `d`. -/
def refsNaming (d : String) (creds : List DockerCredential) : List LocalObjectReference :=
  (creds.filter (fun c => (GoMap.get c.Registries d).isSome)).map
    (fun c => { Name := c.Name })

/-! ## Concrete inputs -/

/-- A payload that sets the hint field of the cronJob kind and no other. -/
def cronPayload : Record :=
  [("name", Value.str "nightly"), ("deploymentConfig", Value.null),
   ("cronJobConfig", Value.map [("schedule", Value.str "@daily")])]

/-- A payload for workload `web` in namespace `ns1`, without selector. -/
def webPayload : Record :=
  [("namespaceId", Value.str "ns1"), ("name", Value.str "web")]

/-- A payload with two containers on `myregistry.io` and one on the public
registry. -/
def threeContainers : Record :=
  [("name", Value.str "web"),
   ("containers", Value.list
      [Value.map [("image", Value.str "myregistry.io/foo")],
       Value.map [("image", Value.str "nginx")],
       Value.map [("image", Value.str "myregistry.io/foo")]])]

/-- A schema with ID `deployment`, on collection 0. -/
def deploymentSchema : Schema := { ID := "deployment", Store := { handle := 0 } }

/-- A schema with ID `job`, on collection 1. -/
def jobSchema : Schema := { ID := "job", Store := { handle := 1 } }

/-- A schema with ID `cronJob`, on collection 2. -/
def cronJobSchema : Schema := { ID := "cronJob", Store := { handle := 2 } }

/-- A lower-casing function that, beyond ASCII, lower-cases the letter `É`, as
`strings.ToLower` does. -/
def latinLower (s : String) : String :=
  String.mk (s.data.map (fun c => if c = 'É' then 'é' else c.toLower))

/-- A schema whose ID has a letter outside ASCII, on collection 5. -/
def ecoleSchema : Schema := { ID := "ÉCOLE", Store := { handle := 5 } }

/-- A schema with the empty ID, on collection 7. -/
def blankSchema : Schema := { ID := "", Store := { handle := 7 } }

/-- The store of the three workload kinds deployment, job and cronJob. -/
def sampleStore : AggregateStore :=
  NewAggregateStore [deploymentSchema, jobSchema, cronJobSchema]

/-- A credential catalog with one namespaced credential for `myregistry.io` and
one global credential for `myregistry.io` and `index.docker.io`.  Collection 0
lists two records and streams three events before it closes its stream,
collection 1 lists one record and closes its stream at once, every other
collection lists nothing and returns no stream. -/
def sampleWorld : World :=
  { reply := fun c =>
      match c with
      | Call.create _ _ data => { record := some data, err := none }
      | Call.update _ _ data _ => { record := some data, err := none }
      | _ => { record := some [("found", Value.bool true)], err := none }
    namespacedCreds :=
      Except.ok [{ Name := "ns-cred", Registries := [("myregistry.io", ⟨"u", "p"⟩)] }]
    creds :=
      Except.ok [{ Name := "global-cred",
                   Registries := [("myregistry.io", ⟨"u", "p"⟩),
                                  ("index.docker.io", ⟨"u", "p"⟩)] }]
    normalizedDomain := fun image =>
      if image = "nginx" then some "docker.io"
      else if image = "myregistry.io/foo" then some "myregistry.io"
      else none
    list := fun store _ =>
      if store.handle = 0 then
        Except.ok [[("name", Value.str "d1")], [("name", Value.str "d2")]]
      else if store.handle = 1 then Except.ok [[("name", Value.str "j1")]]
      else Except.ok []
    watch := fun store _ =>
      if store.handle = 0 then
        WatchReply.stream [[("name", Value.str "e1")], [("name", Value.str "e2")],
          [("name", Value.str "e3")]] true
      else if store.handle = 1 then WatchReply.stream [] true
      else WatchReply.nothing }

/-! ## Lemmas on the identifier codec -/

theorem cutFirst_none {sep : Char} {l : List Char} (h : sep ∉ l) :
    cutFirst sep l = none := by
  induction l with
  | nil => rfl
  | cons c cs ih =>
    have hc : c ≠ sep := fun e => h (by simp [e])
    have hcs : sep ∉ cs := fun e => h (by simp [e])
    simp [cutFirst, hc, ih hcs]

theorem cutFirst_some {sep : Char} {l : List Char} (h : sep ∈ l) :
    ∃ pre post, cutFirst sep l = some (pre, post) ∧ sep ∉ pre ∧
      l = pre ++ sep :: post := by
  induction l with
  | nil => simp at h
  | cons c cs ih =>
    by_cases hc : c = sep
    · exact ⟨[], cs, by simp [cutFirst, hc], by simp, by simp [hc]⟩
    · have hcs : sep ∈ cs := by
        rcases List.mem_cons.1 h with e | e
        · exact absurd e.symm hc
        · exact e
      obtain ⟨pre, post, h1, h2, h3⟩ := ih hcs
      refine ⟨c :: pre, post, by simp [cutFirst, hc, h1], ?_, by simp [h3]⟩
      intro hm
      rcases List.mem_cons.1 hm with e | e
      · exact hc e.symm
      · exact h2 e

theorem cutFirst_append {sep : Char} {pre : List Char} (post : List Char)
    (h : sep ∉ pre) : cutFirst sep (pre ++ sep :: post) = some (pre, post) := by
  induction pre with
  | nil => simp [cutFirst]
  | cons c cs ih =>
    have hc : c ≠ sep := fun e => h (by simp [e])
    have hcs : sep ∉ cs := fun e => h (by simp [e])
    simp [cutFirst, hc, ih hcs]

theorem splitTypeAndID_append (kind loc : String) (h : ':' ∉ kind.data) :
    splitTypeAndID (kind ++ ":" ++ loc) = (kind, loc) := by
  have hd : (kind ++ ":" ++ loc).data = kind.data ++ ':' :: loc.data := by
    simp [String.data_append]
  simp [splitTypeAndID, splitN2, hd, cutFirst_append _ h]

theorem splitTypeAndID_noColon (id : String) (h : ':' ∉ id.data) :
    splitTypeAndID id = ("", "") := by
  simp [splitTypeAndID, splitN2, cutFirst_none h]

/-! ## Lemmas on maps -/

theorem GoMap.get_put_same {α : Type} (m : GoMap α) (k : String) (v : α) :
    GoMap.get (GoMap.put m k v) k = some v := by
  induction m with
  | nil => simp [GoMap.put, GoMap.get]
  | cons e rest ih =>
    obtain ⟨k', v'⟩ := e
    by_cases h : k' = k
    · simp [GoMap.put, GoMap.get, h]
    · simp [GoMap.put, GoMap.get, h, ih]

theorem GoMap.get_put_ne {α : Type} (m : GoMap α) {k k' : String} (v : α)
    (hne : k ≠ k') : GoMap.get (GoMap.put m k v) k' = GoMap.get m k' := by
  induction m with
  | nil => simp [GoMap.put, GoMap.get, hne]
  | cons e rest ih =>
    obtain ⟨k0, v0⟩ := e
    by_cases h : k0 = k
    · subst h
      simp [GoMap.put, GoMap.get, hne]
    · by_cases h2 : k0 = k'
      · subst h2
        simp [GoMap.put, GoMap.get, h]
      · simp [GoMap.put, GoMap.get, h, h2, ih]

theorem GoMap.get_put {α : Type} (m : GoMap α) (k k' : String) (v : α) :
    GoMap.get (GoMap.put m k v) k' = if k = k' then some v else GoMap.get m k' := by
  by_cases h : k = k'
  · subst h
    simp [GoMap.get_put_same]
  · simp [h, GoMap.get_put_ne m v h]

theorem index_put_same (data : Record) (k : String) (v : Value) :
    index (GoMap.put data k v) k = v := by
  simp [index, GoMap.get_put_same]

theorem index_put_ne (data : Record) {k k' : String} (v : Value) (hne : k ≠ k') :
    index (GoMap.put data k v) k' = index data k' := by
  simp [index, GoMap.get_put_ne data v hne]

/-! ## Lemmas on the binding table -/

theorem NewAggregateStoreWith_snoc (lower : String → String) (schemas : List Schema)
    (s : Schema) :
    NewAggregateStoreWith lower (schemas ++ [s]) =
      { Schemas := GoMap.put (NewAggregateStoreWith lower schemas).Schemas (lower s.ID) s
        Stores := GoMap.put (NewAggregateStoreWith lower schemas).Stores (lower s.ID) s.Store
        FieldToSchemaID :=
          GoMap.put (NewAggregateStoreWith lower schemas).FieldToSchemaID (s.ID ++ "Config")
            (lower s.ID) } := by
  simp [NewAggregateStoreWith, List.foldl_append]

theorem lastLowered_snoc (lower : String → String) (schemas : List Schema) (s : Schema)
    (k : String) :
    lastLowered lower (schemas ++ [s]) k =
      if lower s.ID = k then some s else lastLowered lower schemas k := by
  simp [lastLowered, List.find?_cons]
  split <;> simp_all

theorem NewAggregateStoreWith_tables (lower : String → String) (schemas : List Schema)
    (k : String) :
    GoMap.get (NewAggregateStoreWith lower schemas).Schemas k = lastLowered lower schemas k ∧
    GoMap.get (NewAggregateStoreWith lower schemas).Stores k =
      (lastLowered lower schemas k).map Schema.Store := by
  induction schemas using List.reverseRecOn with
  | nil => simp [NewAggregateStoreWith, lastLowered, GoMap.get]
  | append_singleton xs x ih =>
    rw [NewAggregateStoreWith_snoc, lastLowered_snoc]
    simp only [GoMap.get_put]
    by_cases h : lower x.ID = k
    · simp [h]
    · simp [h, ih]

theorem lastLowered_some {lower : String → String} {schemas : List Schema} {k : String}
    {s : Schema} (h : lastLowered lower schemas k = some s) :
    s ∈ schemas ∧ lower s.ID = k := by
  unfold lastLowered at h
  have h1 := List.mem_of_find?_eq_some h
  have h2 := List.find?_some h
  exact ⟨by simpa using h1, by simpa using h2⟩

theorem lastLowered_none {lower : String → String} {schemas : List Schema} {k : String}
    (h : lastLowered lower schemas k = none) : ∀ s ∈ schemas, lower s.ID ≠ k := by
  unfold lastLowered at h
  intro s hs
  have := List.find?_eq_none.1 h s (by simpa using hs)
  simpa using this

theorem lastLowered_isSome (lower : String → String) {schemas : List Schema} {s : Schema}
    (hs : s ∈ schemas) : ∃ s', lastLowered lower schemas (lower s.ID) = some s' := by
  cases h : lastLowered lower schemas (lower s.ID) with
  | some s' => exact ⟨s', rfl⟩
  | none => exact absurd rfl (lastLowered_none h s hs)

theorem NewAggregateStore_snoc (schemas : List Schema) (s : Schema) :
    NewAggregateStore (schemas ++ [s]) =
      { Schemas := GoMap.put (NewAggregateStore schemas).Schemas (toLower s.ID) s
        Stores := GoMap.put (NewAggregateStore schemas).Stores (toLower s.ID) s.Store
        FieldToSchemaID :=
          GoMap.put (NewAggregateStore schemas).FieldToSchemaID (s.ID ++ "Config")
            (toLower s.ID) } :=
  NewAggregateStoreWith_snoc toLower schemas s

theorem lastWithKey_snoc (schemas : List Schema) (s : Schema) (k : String) :
    lastWithKey (schemas ++ [s]) k =
      if toLower s.ID = k then some s else lastWithKey schemas k :=
  lastLowered_snoc toLower schemas s k

theorem NewAggregateStore_tables (schemas : List Schema) (k : String) :
    GoMap.get (NewAggregateStore schemas).Schemas k = lastWithKey schemas k ∧
    GoMap.get (NewAggregateStore schemas).Stores k =
      (lastWithKey schemas k).map Schema.Store :=
  NewAggregateStoreWith_tables toLower schemas k

theorem lastWithKey_some {schemas : List Schema} {k : String} {s : Schema}
    (h : lastWithKey schemas k = some s) : s ∈ schemas ∧ toLower s.ID = k :=
  lastLowered_some h

theorem lastWithKey_none {schemas : List Schema} {k : String}
    (h : lastWithKey schemas k = none) : ∀ s ∈ schemas, toLower s.ID ≠ k :=
  lastLowered_none h

theorem lastWithKey_isSome {schemas : List Schema} {s : Schema} (hs : s ∈ schemas) :
    ∃ s', lastWithKey schemas (toLower s.ID) = some s' :=
  lastLowered_isSome toLower hs

/-! ## Lemmas on the field table and on kind inference -/

theorem GoMap.mem_put {α : Type} {m : GoMap α} {k : String} {v : α} {e : String × α}
    (h : e ∈ GoMap.put m k v) : e = (k, v) ∨ e ∈ m := by
  induction m with
  | nil => simpa [GoMap.put] using h
  | cons e0 rest ih =>
    obtain ⟨k0, v0⟩ := e0
    by_cases hk : k0 = k
    · simp [GoMap.put, hk] at h
      rcases h with h | h
      · exact Or.inl h
      · exact Or.inr (by simp [h])
    · simp [GoMap.put, hk] at h
      rcases h with h | h
      · exact Or.inr (by simp [h])
      · rcases ih h with h' | h'
        · exact Or.inl h'
        · exact Or.inr (by simp [h'])

theorem GoMap.mem_of_get {α : Type} {m : GoMap α} {k : String} {v : α}
    (h : GoMap.get m k = some v) : (k, v) ∈ m := by
  induction m with
  | nil => simp [GoMap.get] at h
  | cons e0 rest ih =>
    obtain ⟨k0, v0⟩ := e0
    by_cases hk : k0 = k
    · simp [GoMap.get, hk] at h
      simp [hk, h]
    · simp [GoMap.get, hk] at h
      simp [ih h]

theorem GoMap.keys_put {α : Type} (m : GoMap α) (k : String) (v : α) :
    (GoMap.put m k v).map Prod.fst =
      if k ∈ m.map Prod.fst then m.map Prod.fst else m.map Prod.fst ++ [k] := by
  induction m with
  | nil => simp [GoMap.put]
  | cons e0 rest ih =>
    obtain ⟨k0, v0⟩ := e0
    by_cases hk : k0 = k
    · simp [GoMap.put, hk]
    · have hk' : k ≠ k0 := fun e => hk e.symm
      simp only [GoMap.put, hk, if_false, List.map_cons, ih, List.mem_cons, hk', false_or]
      split <;> simp

theorem fieldTableWith_mem {lower : String → String} {schemas : List Schema}
    {f k : String} (h : (f, k) ∈ (NewAggregateStoreWith lower schemas).FieldToSchemaID) :
    ∃ s ∈ schemas, f = s.ID ++ "Config" ∧ k = lower s.ID := by
  induction schemas using List.reverseRecOn with
  | nil => simp [NewAggregateStoreWith] at h
  | append_singleton xs x ih =>
    rw [NewAggregateStoreWith_snoc] at h
    rcases GoMap.mem_put h with h | h
    · cases h
      exact ⟨x, by simp, rfl, rfl⟩
    · obtain ⟨s, hs, h1, h2⟩ := ih h
      exact ⟨s, by simp [hs], h1, h2⟩

theorem fieldTable_mem {schemas : List Schema} {f k : String}
    (h : (f, k) ∈ (NewAggregateStore schemas).FieldToSchemaID) :
    ∃ s ∈ schemas, f = s.ID ++ "Config" ∧ k = toLower s.ID :=
  fieldTableWith_mem h

theorem firstHint_none {data : Record} {fields : GoMap String}
    (h : ∀ e ∈ fields, isSet data e.1 = false) : firstHint data fields = none := by
  induction fields with
  | nil => rfl
  | cons e rest ih =>
    obtain ⟨f, k⟩ := e
    have h1 : isSet data f = false := h (f, k) (by simp)
    have h2 : ∀ e ∈ rest, isSet data e.1 = false := fun e he => h e (by simp [he])
    simp [firstHint, h1, ih h2]

theorem firstHint_some {data : Record} {fields : GoMap String} {k : String}
    (h : firstHint data fields = some k) :
    ∃ f, (f, k) ∈ fields ∧ isSet data f = true := by
  induction fields with
  | nil => simp [firstHint] at h
  | cons e rest ih =>
    obtain ⟨f0, k0⟩ := e
    by_cases h0 : isSet data f0 = true
    · simp [firstHint, h0] at h
      subst h
      exact ⟨f0, by simp, h0⟩
    · simp [firstHint, h0] at h
      obtain ⟨f, hf, hs⟩ := ih h
      exact ⟨f, by simp [hf], hs⟩

theorem collectSecrets_eq (w : World) (idx : GoMap (List LocalObjectReference))
    (containers : List Record) (acc : List LocalObjectReference) :
    collectSecrets w idx containers acc =
      acc ++ containers.flatMap (containerSecrets w idx) := by
  induction containers generalizing acc with
  | nil => simp [collectSecrets]
  | cons c rest ih =>
    by_cases hi : convert_ToString (index c "image") = ""
    · simp [collectSecrets, containerSecrets, hi, ih]
    · cases hg : GoMap.get idx (getDomain w (convert_ToString (index c "image"))) with
      | none => simp [collectSecrets, containerSecrets, hi, hg, ih]
      | some secrets => simp [collectSecrets, containerSecrets, hi, hg, ih]

theorem setSecrets_cases (w : World) (data : Record) :
    (setSecrets w data).1 = data ∨
    ∃ rs, (setSecrets w data).1 = GoMap.put data "imagePullSecrets" (Value.refs rs) := by
  unfold setSecrets
  cases values_GetValue data "imagePullSecrets" with
  | null =>
    simp only []
    by_cases h1 : (values_GetSlice data "containers").length > 0
    · by_cases h2 : collectSecrets w (getCreds w) (values_GetSlice data "containers")
          (asRefs (index data "imagePullSecrets")) ≠ []
      · exact Or.inr ⟨_, by rw [if_pos h1, if_pos h2]; rfl⟩
      · exact Or.inl (by rw [if_pos h1, if_neg h2])
    · exact Or.inl (by rw [if_neg h1])
  | bool b => exact Or.inl rfl
  | int n => exact Or.inl rfl
  | str s => exact Or.inl rfl
  | list xs => exact Or.inl rfl
  | map m => exact Or.inl rfl
  | refs rs => exact Or.inl rfl

theorem setSecrets_index (w : World) (data : Record) {k : String}
    (hk : "imagePullSecrets" ≠ k) : index (setSecrets w data).1 k = index data k := by
  rcases setSecrets_cases w data with h | ⟨rs, h⟩
  · rw [h]
  · rw [h, index_put_ne data _ hk]

theorem setWorkloadSpecificDefaults_notJob {schemaID : String} (data : Record)
    (h : isJob schemaID = false) : setWorkloadSpecificDefaults schemaID data = data := by
  simp [setWorkloadSpecificDefaults, h]

/-! ## Lemmas on the credential index -/

theorem GoMap.get_isSome_iff {α : Type} (m : GoMap α) (k : String) :
    (GoMap.get m k).isSome = true ↔ k ∈ m.map Prod.fst := by
  induction m with
  | nil => simp [GoMap.get]
  | cons e rest ih =>
    obtain ⟨k0, v0⟩ := e
    by_cases h : k0 = k
    · simp [GoMap.get, h]
    · have h' : k ≠ k0 := fun e => h e.symm
      simp only [GoMap.get, h, if_false, ih, List.map_cons, List.mem_cons, h', false_or]

theorem store_cons (r : String) (c : RegistryCredential) (rest : GoMap RegistryCredential)
    (idx : GoMap (List LocalObjectReference)) (name : String) :
    store ((r, c) :: rest) idx name =
      store rest (GoMap.put idx r ((GoMap.get idx r).getD [] ++ [{ Name := name }])) name := by
  cases h : GoMap.get idx r with
  | none => simp [store, h]
  | some l => simp [store, h]

theorem store_get_notMem (registries : GoMap RegistryCredential)
    (idx : GoMap (List LocalObjectReference)) (name d : String)
    (hd : d ∉ registries.map Prod.fst) :
    GoMap.get (store registries idx name) d = GoMap.get idx d := by
  induction registries generalizing idx with
  | nil => rfl
  | cons e rest ih =>
    obtain ⟨r, c⟩ := e
    have hr : r ≠ d := fun e => hd (by simp [e])
    have hrest : d ∉ rest.map Prod.fst := fun e => hd (by simp [e])
    rw [store_cons, ih _ hrest, GoMap.get_put_ne idx _ hr]

theorem store_get_mem (registries : GoMap RegistryCredential)
    (idx : GoMap (List LocalObjectReference)) (name d : String)
    (hnd : (registries.map Prod.fst).Nodup) (hd : d ∈ registries.map Prod.fst) :
    GoMap.get (store registries idx name) d =
      some ((GoMap.get idx d).getD [] ++ [{ Name := name }]) := by
  induction registries generalizing idx with
  | nil => simp at hd
  | cons e rest ih =>
    obtain ⟨r, c⟩ := e
    simp only [List.map_cons, List.nodup_cons] at hnd
    rw [store_cons]
    by_cases hr : r = d
    · subst hr
      rw [store_get_notMem _ _ _ _ hnd.1, GoMap.get_put_same]
    · have hrest : d ∈ rest.map Prod.fst := by
        simp only [List.map_cons, List.mem_cons] at hd
        rcases hd with h | h
        · exact absurd h.symm hr
        · exact h
      rw [ih _ hnd.2 hrest, GoMap.get_put_ne idx _ hr]

theorem storeAll_getD (creds : List DockerCredential)
    (idx : GoMap (List LocalObjectReference)) (d : String)
    (hnd : ∀ c ∈ creds, (c.Registries.map Prod.fst).Nodup) :
    (GoMap.get (storeAll creds idx) d).getD [] =
      (GoMap.get idx d).getD [] ++ refsNaming d creds := by
  induction creds generalizing idx with
  | nil => simp [storeAll, refsNaming]
  | cons c rest ih =>
    have hrest : ∀ c' ∈ rest, (c'.Registries.map Prod.fst).Nodup :=
      fun c' hc' => hnd c' (by simp [hc'])
    have hc := hnd c (by simp)
    simp only [storeAll]
    rw [ih _ hrest]
    by_cases hm : d ∈ c.Registries.map Prod.fst
    · have hs : (GoMap.get c.Registries d).isSome = true :=
        (GoMap.get_isSome_iff _ _).2 hm
      rw [store_get_mem _ _ _ _ hc hm]
      simp [refsNaming, List.filter_cons, hs]
    · have hs : (GoMap.get c.Registries d).isSome = false := by
        cases h : (GoMap.get c.Registries d).isSome with
        | false => rfl
        | true => exact absurd ((GoMap.get_isSome_iff _ _).1 h) hm
      rw [store_get_notMem _ _ _ _ hm]
      simp [refsNaming, List.filter_cons, hs]

theorem getCreds_eq (w : World) :
    getCreds w = storeAll (credsOf w.creds) (storeAll (credsOf w.namespacedCreds) []) := by
  unfold getCreds
  cases w.namespacedCreds <;> cases w.creds <;> simp [credsOf, storeAll]

theorem collectSecrets_congr (w w' : World) (h : w.normalizedDomain = w'.normalizedDomain)
    (idx : GoMap (List LocalObjectReference)) (containers : List Record)
    (acc : List LocalObjectReference) :
    collectSecrets w idx containers acc = collectSecrets w' idx containers acc := by
  induction containers generalizing acc with
  | nil => rfl
  | cons c rest ih =>
    simp only [collectSecrets, getDomain, h, ih]

theorem setSecrets_congr (w w' : World) (h : w.normalizedDomain = w'.normalizedDomain)
    (hc : getCreds w = getCreds w') (data : Record) :
    setSecrets w data = setSecrets w' data := by
  simp only [setSecrets, hc, collectSecrets_congr w w' h]

/-! ## Lemmas on letter case and on the keys of the binding table -/

theorem ofNat_lower (n : Nat) (h1 : 65 ≤ n) (h2 : n ≤ 90) :
    (Char.ofNat (n + 32)).toNat = n + 32 := by
  interval_cases n <;> rfl

theorem char_toLower_idem (c : Char) : c.toLower.toLower = c.toLower := by
  by_cases h : c.toNat ≥ 65 ∧ c.toNat ≤ 90
  · have h1 : c.toLower = Char.ofNat (c.toNat + 32) := by
      simp only [Char.toLower, h, and_self, if_true]
    have h2 := ofNat_lower c.toNat h.1 h.2
    rw [h1]
    have h3 : ¬ ((Char.ofNat (c.toNat + 32)).toNat ≥ 65 ∧
        (Char.ofNat (c.toNat + 32)).toNat ≤ 90) := by
      rw [h2]
      omega
    simp only [Char.toLower, h3, if_false]
  · have h1 : c.toLower = c := by
      simp only [Char.toLower, h, if_false]
    rw [h1, h1]

theorem toLower_idem (s : String) : toLower (toLower s) = toLower s := by
  have h : List.map (Char.toLower ∘ Char.toLower) s.data =
      List.map Char.toLower s.data :=
    List.map_congr_left (fun c _ => char_toLower_idem c)
  simp [toLower, h]

theorem equalFoldChars_iff (cs ds : List Char) :
    equalFoldChars cs ds = true ↔ cs.map Char.toLower = ds.map Char.toLower := by
  induction cs generalizing ds with
  | nil => cases ds <;> simp [equalFoldChars]
  | cons c cs ih =>
    cases ds with
    | nil => simp [equalFoldChars]
    | cons d ds => simp [equalFoldChars, ih]

theorem equalFold_iff_toLower (s t : String) :
    equalFold s t = true ↔ toLower s = toLower t := by
  rw [equalFold, equalFoldChars_iff, toLower, toLower]
  constructor
  · intro h
    rw [h]
  · intro h
    exact congrArg String.data h

theorem string_append_right_cancel {a b c : String} (h : a ++ c = b ++ c) : a = b := by
  apply String.ext
  have := congrArg String.data h
  simpa [String.data_append] using this

theorem tablesWith_keys_eq (lower : String → String) (schemas : List Schema) :
    (NewAggregateStoreWith lower schemas).Schemas.map Prod.fst =
      (NewAggregateStoreWith lower schemas).Stores.map Prod.fst := by
  induction schemas using List.reverseRecOn with
  | nil => simp [NewAggregateStoreWith]
  | append_singleton xs x ih =>
    rw [NewAggregateStoreWith_snoc]
    simp only [GoMap.keys_put, ih]

theorem fieldTableWith_get {lower : String → String} {schemas : List Schema}
    {s : Schema} (hs : s ∈ schemas) :
    GoMap.get (NewAggregateStoreWith lower schemas).FieldToSchemaID (s.ID ++ "Config") =
      some (lower s.ID) := by
  induction schemas using List.reverseRecOn with
  | nil => simp at hs
  | append_singleton xs x ih =>
    rw [NewAggregateStoreWith_snoc]
    simp only [GoMap.get_put]
    by_cases h : x.ID ++ "Config" = s.ID ++ "Config"
    · rw [if_pos h, string_append_right_cancel h]
    · rw [if_neg h]
      have hx : s ∈ xs := by
        rcases List.mem_append.1 hs with h' | h'
        · exact h'
        · simp at h'
          subst h'
          exact absurd rfl h
      exact ih hx

theorem GoMap.get_put_isSome {α : Type} (m : GoMap α) (k k' : String) (v : α)
    (h : (GoMap.get m k').isSome = true) :
    (GoMap.get (GoMap.put m k v) k').isSome = true := by
  rw [GoMap.get_put]
  split
  · rfl
  · exact h

/-! ## Lemmas on the frame of the shaping steps -/

theorem setSelector_cases (kind : String) (data : Record) :
    setSelector kind data = data ∨
    ∃ v1 v2 v3, setSelector kind data =
      GoMap.put (GoMap.put (GoMap.put data "selector" v1) "workloadLabels" v2) "labels" v3 := by
  unfold setSelector
  by_cases h : (convert_IsEmpty (index data "selector") && !isJob kind) = true
  · right
    simp only [h, if_true]
    exact ⟨_, _, _, rfl⟩
  · left
    simp only [h, if_false]
    rfl

theorem setWorkloadSpecificDefaults_cases (kind : String) (data : Record) :
    setWorkloadSpecificDefaults kind data = data ∨
    setWorkloadSpecificDefaults kind data =
      GoMap.put data "restartPolicy" (Value.str "OnFailure") := by
  unfold setWorkloadSpecificDefaults
  by_cases h : isJob kind = true
  · cases hg : GoMap.get data "restartPolicy" with
    | none => right; simp [h]
    | some v => left; simp [h]
  · left
    simp [h]

theorem shape_get_frame (w : World) (kind : String) (data : Record) (k : String)
    (h1 : k ≠ "selector") (h2 : k ≠ "labels") (h3 : k ≠ "workloadLabels")
    (h4 : k ≠ "restartPolicy") (h5 : k ≠ "imagePullSecrets") :
    GoMap.get (shape w kind data).1 k = GoMap.get data k := by
  have e1 : GoMap.get (setSelector kind data) k = GoMap.get data k := by
    rcases setSelector_cases kind data with h | ⟨v1, v2, v3, h⟩
    · rw [h]
    · rw [h, GoMap.get_put_ne _ _ (Ne.symm h2), GoMap.get_put_ne _ _ (Ne.symm h3),
        GoMap.get_put_ne _ _ (Ne.symm h1)]
  have e2 : GoMap.get (setWorkloadSpecificDefaults kind (setSelector kind data)) k =
      GoMap.get data k := by
    rcases setWorkloadSpecificDefaults_cases kind (setSelector kind data) with h | h
    · rw [h, e1]
    · rw [h, GoMap.get_put_ne _ _ (Ne.symm h4), e1]
  simp only [shape]
  rcases setSecrets_cases w (setWorkloadSpecificDefaults kind (setSelector kind data))
    with h | ⟨rs, h⟩
  · rw [h, e2]
  · rw [h, GoMap.get_put_ne _ _ (Ne.symm h5), e2]

theorem shape_get_isSome (w : World) (kind : String) (data : Record) (k : String)
    (hk : (GoMap.get data k).isSome = true) :
    (GoMap.get (shape w kind data).1 k).isSome = true := by
  have e1 : (GoMap.get (setSelector kind data) k).isSome = true := by
    rcases setSelector_cases kind data with h | ⟨v1, v2, v3, h⟩
    · rw [h]
      exact hk
    · rw [h]
      exact GoMap.get_put_isSome _ _ _ _
        (GoMap.get_put_isSome _ _ _ _ (GoMap.get_put_isSome _ _ _ _ hk))
  have e2 : (GoMap.get (setWorkloadSpecificDefaults kind (setSelector kind data))
      k).isSome = true := by
    rcases setWorkloadSpecificDefaults_cases kind (setSelector kind data) with h | h
    · rw [h]
      exact e1
    · rw [h]
      exact GoMap.get_put_isSome _ _ _ _ e1
  simp only [shape]
  rcases setSecrets_cases w (setWorkloadSpecificDefaults kind (setSelector kind data))
    with h | ⟨rs, h⟩
  · rw [h]
    exact e2
  · rw [h]
    exact GoMap.get_put_isSome _ _ _ _ e2

/-! ## Lemmas on lists with one element replaced -/

theorem flatMap_set_perm {α β : Type} (f : α → List β) (l : List α) (i : Nat) (a b : α)
    (extra : List β) (hi : l[i]? = some a) (hf : f b = f a ++ extra) :
    ((l.set i b).flatMap f).Perm (l.flatMap f ++ extra) := by
  induction l generalizing i with
  | nil => simp at hi
  | cons x xs ih =>
    cases i with
    | zero =>
      simp at hi
      subst hi
      simp only [List.set_cons_zero, List.flatMap_cons, hf, List.append_assoc]
      exact List.Perm.append_left _ List.perm_append_comm
    | succ i =>
      simp at hi
      simp only [List.set_cons_succ, List.flatMap_cons, List.append_assoc]
      exact List.Perm.append_left _ (ih i hi)

theorem sum_map_set {α : Type} (f : α → Nat) (l : List α) (i : Nat) (a b : α)
    (hi : l[i]? = some a) : ((l.set i b).map f).sum + f a = (l.map f).sum + f b := by
  induction l generalizing i with
  | nil => simp at hi
  | cons x xs ih =>
    cases i with
    | zero =>
      simp at hi
      subst hi
      simp only [List.set_cons_zero, List.map_cons, List.sum_cons]
      omega
    | succ i =>
      simp at hi
      simp only [List.set_cons_succ, List.map_cons, List.sum_cons]
      have := ih i hi
      omega

theorem map_set_same {α β : Type} (f : α → β) (l : List α) (i : Nat) (a b : α)
    (hi : l[i]? = some a) (hf : f b = f a) : (l.set i b).map f = l.map f := by
  induction l generalizing i with
  | nil => simp at hi
  | cons x xs ih =>
    cases i with
    | zero =>
      simp at hi
      subst hi
      simp [hf]
    | succ i =>
      simp at hi
      simp [ih i hi]

theorem mem_of_getElem? {α : Type} {l : List α} {i : Nat} {a : α} (h : l[i]? = some a) :
    a ∈ l :=
  List.mem_iff_getElem?.2 ⟨i, h⟩

/-! ## Lemmas on the machine of List -/

theorem listStep_cases {w : World} {s s' : ListState} {c : ListChoice}
    (h : listStep w s c = some s') :
    (∃ i t m, c = ListChoice.advance i ∧ s.tasks[i]? = some t ∧
      advanceTask w t = some m ∧ s' = applyMove s i t m) ∨
    (∃ i t m, c = ListChoice.abandon i ∧ s.tasks[i]? = some t ∧
      abandonTask s.ctxErr t = some m ∧ s' = applyMove s i t m) ∨
    (∃ reason, c = ListChoice.cancel reason ∧ s.ctxErr = none ∧
      s' = { tasks := s.tasks, result := s.result, err := s.err, ctxErr := some reason }) := by
  cases c with
  | advance i =>
    left
    simp only [listStep] at h
    cases ht : s.tasks[i]? with
    | none => simp [ht] at h
    | some t =>
      cases hm : advanceTask w t with
      | none => simp [ht, hm] at h
      | some m =>
        simp [ht, hm] at h
        exact ⟨i, t, m, rfl, ht, hm, h.symm⟩
  | abandon i =>
    right
    left
    simp only [listStep] at h
    cases ht : s.tasks[i]? with
    | none => simp [ht] at h
    | some t =>
      cases hm : abandonTask s.ctxErr t with
      | none => simp [ht, hm] at h
      | some m =>
        simp [ht, hm] at h
        exact ⟨i, t, m, rfl, ht, hm, h.symm⟩
  | cancel reason =>
    right
    right
    simp only [listStep] at h
    cases hc : s.ctxErr with
    | none =>
      simp [hc] at h
      exact ⟨reason, rfl, rfl, h.symm⟩
    | some e => simp [hc] at h

theorem advanceTask_onTrack {w : World} {t : ListTask} {m : ListMove}
    (hok : ∃ data, w.list t.store t.schema = Except.ok data) (ht : t.onTrack w)
    (hm : advanceTask w t = some m) :
    m.failed = none ∧
    ListTask.onTrack w { schema := t.schema, store := t.store, pc := m.pc } ∧
    ListTask.sent w { schema := t.schema, store := t.store, pc := m.pc } =
      t.sent w ++ m.item.toList := by
  obtain ⟨schema, store, pc⟩ := t
  obtain ⟨data0, hdata0⟩ := hok
  simp only at hdata0
  cases pc with
  | calling =>
    simp only [advanceTask, hdata0] at hm
    cases hm
    simp [ListTask.onTrack, ListTask.sent, hdata0]
  | sending data next =>
    simp only [ListTask.onTrack] at ht
    cases hi : data[next]? with
    | some item =>
      simp only [advanceTask, hi] at hm
      cases hm
      have hlt : next < data.length := by
        obtain ⟨h, _⟩ := List.getElem?_eq_some.1 hi
        exact h
      refine ⟨rfl, ⟨ht.1, hlt⟩, ?_⟩
      simp [ListTask.sent, List.take_succ, hi]
    | none =>
      simp only [advanceTask, hi] at hm
      cases hm
      have hge : data.length ≤ next := by
        by_contra hcon
        have hlt : next < data.length := Nat.lt_of_not_le hcon
        have hsome := List.getElem?_eq_some.2 ⟨hlt, rfl⟩
        rw [hi] at hsome
        exact Option.noConfusion hsome
      refine ⟨rfl, rfl, ?_⟩
      simp [ListTask.sent, ListTask.data, ht.1, recordsOf, List.take_of_length_le hge]
  | returned err => simp [advanceTask] at hm

theorem okInv_step {w : World} {s s' : ListState} {c : ListChoice}
    (hinv : s.okInv w) (hc : c.isCancel = false) (h : listStep w s c = some s') :
    s'.okInv w := by
  obtain ⟨herr, hctx, hok, htrack, hperm, hsub⟩ := hinv
  rcases listStep_cases h with ⟨i, t, m, _, hti, hm, hs'⟩ | ⟨i, t, m, _, hti, hm, _⟩ |
      ⟨reason, hcc, _, _⟩
  · have htm := mem_of_getElem? hti
    obtain ⟨hf, ht', hsent⟩ := advanceTask_onTrack (hok t htm) (htrack t htm) hm
    have hres : s'.result = s.result ++ m.item.toList := by
      rw [hs']
      cases hitem : m.item <;> simp [applyMove, hitem]
    have hmem : ∀ x ∈ s'.tasks, x ∈ s.tasks ∨
        x = { schema := t.schema, store := t.store, pc := m.pc } := by
      intro x hx
      rw [hs'] at hx
      exact List.mem_or_eq_of_mem_set hx
    refine ⟨?_, ?_, ?_, ?_, ?_, ?_⟩
    · rw [hs']
      simp [applyMove, groupReturn, hf, herr]
    · rw [hs']
      simp [applyMove, groupReturn, hf, hctx]
    · intro x hx
      rcases hmem x hx with hx | hx
      · exact hok x hx
      · subst hx
        exact hok t htm
    · intro x hx
      rcases hmem x hx with hx | hx
      · exact htrack x hx
      · subst hx
        exact ht'
    · rw [hres]
      have h1 := flatMap_set_perm (ListTask.sent w) s.tasks i t
        { schema := t.schema, store := t.store, pc := m.pc } m.item.toList hti hsent
      have h2 : s'.tasks = s.tasks.set i
          { schema := t.schema, store := t.store, pc := m.pc } := by
        rw [hs']
        rfl
      rw [h2]
      exact (List.Perm.append_right _ hperm).trans h1.symm
    · intro x hx
      rw [hres]
      rcases hmem x hx with hx | hx
      · exact (hsub x hx).trans (List.sublist_append_left _ _)
      · subst hx
        rw [hsent]
        exact List.Sublist.append (hsub t htm) (List.Sublist.refl _)
  · exfalso
    obtain ⟨schema, store, pc⟩ := t
    cases pc <;> simp [abandonTask, hctx] at hm
  · subst hcc
    simp [ListChoice.isCancel] at hc

theorem applyMove_keys (s : ListState) (i : Nat) (t : ListTask) (m : ListMove)
    (hti : s.tasks[i]? = some t) :
    (applyMove s i t m).tasks.map ListTask.key = s.tasks.map ListTask.key :=
  map_set_same ListTask.key s.tasks i t _ hti rfl

theorem listStep_keys {w : World} {s s' : ListState} {c : ListChoice}
    (h : listStep w s c = some s') :
    s'.tasks.map ListTask.key = s.tasks.map ListTask.key := by
  rcases listStep_cases h with ⟨i, t, m, _, hti, _, hs'⟩ | ⟨i, t, m, _, hti, _, hs'⟩ |
      ⟨reason, _, _, hs'⟩
  · rw [hs']
    exact applyMove_keys s i t m hti
  · rw [hs']
    exact applyMove_keys s i t m hti
  · rw [hs']

theorem groupReturn_of_isSome (err ctxErr failed : Option GoError)
    (h : err.isSome = true) : groupReturn err ctxErr failed = (err, ctxErr) := by
  cases err with
  | none => simp at h
  | some e => cases failed <;> rfl

theorem groupReturn_isSome (err ctxErr failed : Option GoError)
    (h : err.isSome = true ∨ failed.isSome = true) :
    (groupReturn err ctxErr failed).1.isSome = true := by
  cases err with
  | some e => cases failed <;> rfl
  | none =>
    cases failed with
    | none => simp at h
    | some f => rfl

theorem applyMove_errInv {w : World} {s : ListState} {i : Nat} {t : ListTask}
    {m : ListMove} (hinv : s.errInv w) (hti : s.tasks[i]? = some t)
    (hcons : ListTask.consistent w { schema := t.schema, store := t.store, pc := m.pc })
    (hret : ∀ e, m.pc = ListPc.returned (some e) → m.failed.isSome = true)
    (hfail : ∀ e, m.failed = some e →
      s.err.isSome = true ∨ w.list t.store t.schema = Except.error e) :
    (applyMove s i t m).errInv w := by
  obtain ⟨ha, hb, hc, hd⟩ := hinv
  have htm := mem_of_getElem? hti
  have hmem : ∀ x ∈ (applyMove s i t m).tasks, x ∈ s.tasks ∨
      x = { schema := t.schema, store := t.store, pc := m.pc } := by
    intro x hx
    exact List.mem_or_eq_of_mem_set hx
  refine ⟨?_, ?_, ?_, ?_⟩
  · intro x hx e hpc
    simp only [applyMove]
    rcases hmem x hx with hx | hx
    · exact groupReturn_isSome _ _ _ (Or.inl (ha x hx e hpc))
    · subst hx
      exact groupReturn_isSome _ _ _ (Or.inr (hret e hpc))
  · intro e he
    rw [applyMove_keys s i t m hti]
    simp only [applyMove] at he
    cases herr : s.err with
    | some e0 =>
      rw [groupReturn_of_isSome _ _ _ (by simp [herr])] at he
      exact hb e he
    | none =>
      cases hf : m.failed with
      | none =>
        simp [groupReturn, hf, herr] at he
      | some f =>
        simp [groupReturn, hf, herr] at he
        subst he
        rcases hfail f hf with h | h
        · simp [herr] at h
        · exact ⟨t.key, List.mem_map.2 ⟨t, htm, rfl⟩, h⟩
  · intro hctx
    simp only [applyMove] at hctx ⊢
    cases herr : s.err with
    | some e0 => exact groupReturn_isSome _ _ _ (Or.inl rfl)
    | none =>
      cases hf : m.failed with
      | none =>
        simp only [groupReturn, hf, herr] at hctx
        have := hc hctx
        simp [herr] at this
      | some f => exact groupReturn_isSome _ _ _ (Or.inr rfl)
  · intro x hx
    rcases hmem x hx with hx | hx
    · exact hd x hx
    · subst hx
      exact hcons

theorem advanceTask_consistent {w : World} {t : ListTask} {m : ListMove}
    (ht : t.consistent w) (hm : advanceTask w t = some m) :
    ListTask.consistent w { schema := t.schema, store := t.store, pc := m.pc } ∧
    (∀ e, m.pc = ListPc.returned (some e) → m.failed.isSome = true) ∧
    (∀ e, m.failed = some e → w.list t.store t.schema = Except.error e) := by
  obtain ⟨schema, store, pc⟩ := t
  cases pc with
  | calling =>
    cases hl : w.list store schema with
    | error e =>
      simp only [advanceTask, hl] at hm
      cases hm
      simp [ListTask.consistent]
    | ok data =>
      simp only [advanceTask, hl] at hm
      cases hm
      simp [ListTask.consistent, hl]
  | sending data next =>
    simp only [ListTask.consistent] at ht
    cases hi : data[next]? with
    | some item =>
      simp only [advanceTask, hi] at hm
      cases hm
      simp [ListTask.consistent, ht]
    | none =>
      simp only [advanceTask, hi] at hm
      cases hm
      simp [ListTask.consistent, ht]
  | returned err => simp [advanceTask] at hm

theorem abandonTask_some {ctxErr : Option GoError} {t : ListTask} {m : ListMove}
    (hm : abandonTask ctxErr t = some m) :
    ∃ e data next, ctxErr = some e ∧ t.pc = ListPc.sending data next ∧
      next < data.length ∧ m = { pc := ListPc.returned (some e), item := none, failed := some e } := by
  obtain ⟨schema, store, pc⟩ := t
  cases pc with
  | calling => simp [abandonTask] at hm
  | returned err => simp [abandonTask] at hm
  | sending data next =>
    cases hc : ctxErr with
    | none => simp [abandonTask, hc] at hm
    | some e =>
      by_cases hlt : next < data.length
      · simp [abandonTask, hc, hlt] at hm
        exact ⟨e, data, next, rfl, rfl, hlt, hm.symm⟩
      · simp [abandonTask, hc, hlt] at hm

theorem errInv_step {w : World} {s s' : ListState} {c : ListChoice}
    (hinv : s.errInv w) (hc : c.isCancel = false) (h : listStep w s c = some s') :
    s'.errInv w := by
  rcases listStep_cases h with ⟨i, t, m, _, hti, hm, hs'⟩ | ⟨i, t, m, _, hti, hm, hs'⟩ |
      ⟨reason, hcc, _, _⟩
  · obtain ⟨h1, h2, h3⟩ := advanceTask_consistent (hinv.2.2.2 t (mem_of_getElem? hti)) hm
    rw [hs']
    exact applyMove_errInv hinv hti h1 h2 (fun e he => Or.inr (h3 e he))
  · obtain ⟨e, data, next, hctx, _, _, hm'⟩ := abandonTask_some hm
    rw [hs', hm']
    refine applyMove_errInv hinv hti ?_ ?_ ?_
    · simp [ListTask.consistent]
    · intro e' _
      rfl
    · intro e' _
      exact Or.inl (hinv.2.2.1 (by simp [hctx]))
  · subst hcc
    simp [ListChoice.isCancel] at hc

theorem ListTask.fuel_advance {w : World} {t : ListTask} {m : ListMove}
    (hm : advanceTask w t = some m) :
    ListTask.fuel w { schema := t.schema, store := t.store, pc := m.pc } < t.fuel w := by
  obtain ⟨schema, store, pc⟩ := t
  cases pc with
  | calling =>
    cases hl : w.list store schema with
    | error e =>
      simp only [advanceTask, hl] at hm
      cases hm
      simp [ListTask.fuel]
    | ok data =>
      simp only [advanceTask, hl] at hm
      cases hm
      simp [ListTask.fuel, ListTask.data, hl, recordsOf]
  | sending data next =>
    cases hi : data[next]? with
    | some item =>
      simp only [advanceTask, hi] at hm
      cases hm
      have hlt : next < data.length := by
        obtain ⟨h, _⟩ := List.getElem?_eq_some.1 hi
        exact h
      simp only [ListTask.fuel]
      omega
    | none =>
      simp only [advanceTask, hi] at hm
      cases hm
      simp [ListTask.fuel]
  | returned err => simp [advanceTask] at hm

theorem applyMove_fuel {w : World} {s : ListState} {i : Nat} {t : ListTask}
    {m : ListMove} (hti : s.tasks[i]? = some t)
    (hlt : ListTask.fuel w { schema := t.schema, store := t.store, pc := m.pc } < t.fuel w) :
    (applyMove s i t m).fuel w < s.fuel w := by
  have hsum := sum_map_set (ListTask.fuel w) s.tasks i t
    { schema := t.schema, store := t.store, pc := m.pc } hti
  have hctx : (match (groupReturn s.err s.ctxErr m.failed).2 with
      | none => 1
      | some _ => 0) ≤ (match s.ctxErr with
      | none => 1
      | some _ => 0) := by
    cases s.err <;> cases s.ctxErr <;> cases m.failed <;> simp [groupReturn]
  simp only [ListState.fuel, applyMove]
  omega

theorem listStep_fuel {w : World} {s s' : ListState} {c : ListChoice}
    (h : listStep w s c = some s') : s'.fuel w < s.fuel w := by
  rcases listStep_cases h with ⟨i, t, m, _, hti, hm, hs'⟩ | ⟨i, t, m, _, hti, hm, hs'⟩ |
      ⟨reason, _, hctx, hs'⟩
  · rw [hs']
    exact applyMove_fuel hti (ListTask.fuel_advance hm)
  · obtain ⟨e, data, next, _, hpc, hlt, hm'⟩ := abandonTask_some hm
    rw [hs', hm']
    apply applyMove_fuel hti
    obtain ⟨schema, store, pc⟩ := t
    simp only at hpc
    subst hpc
    simp [ListTask.fuel]
  · rw [hs']
    simp [ListState.fuel, hctx]

theorem listRun_fuel {w : World} {s s' : ListState} {schedule : List ListChoice}
    (h : listRun w s schedule = some s') : schedule.length + s'.fuel w ≤ s.fuel w := by
  induction schedule generalizing s with
  | nil =>
    simp only [listRun] at h
    cases h
    simp
  | cons c rest ih =>
    simp only [listRun] at h
    cases hs : listStep w s c with
    | none => simp [hs] at h
    | some s1 =>
      rw [hs] at h
      have h1 := ih h
      have h2 := listStep_fuel hs
      simp only [List.length_cons]
      omega

theorem listRun_keys {w : World} {s s' : ListState} {schedule : List ListChoice}
    (h : listRun w s schedule = some s') :
    s'.tasks.map ListTask.key = s.tasks.map ListTask.key := by
  induction schedule generalizing s with
  | nil =>
    simp only [listRun] at h
    cases h
    rfl
  | cons c rest ih =>
    simp only [listRun] at h
    cases hs : listStep w s c with
    | none => simp [hs] at h
    | some s1 =>
      rw [hs] at h
      rw [ih h, listStep_keys hs]

theorem listRun_okInv {w : World} {s s' : ListState} {schedule : List ListChoice}
    (hinv : s.okInv w) (hnc : ∀ c ∈ schedule, c.isCancel = false)
    (h : listRun w s schedule = some s') : s'.okInv w := by
  induction schedule generalizing s with
  | nil =>
    simp only [listRun] at h
    cases h
    exact hinv
  | cons c rest ih =>
    simp only [listRun] at h
    cases hs : listStep w s c with
    | none => simp [hs] at h
    | some s1 =>
      rw [hs] at h
      exact ih (okInv_step hinv (hnc c (by simp)) hs)
        (fun c' hc' => hnc c' (by simp [hc'])) h

theorem listRun_errInv {w : World} {s s' : ListState} {schedule : List ListChoice}
    (hinv : s.errInv w) (hnc : ∀ c ∈ schedule, c.isCancel = false)
    (h : listRun w s schedule = some s') : s'.errInv w := by
  induction schedule generalizing s with
  | nil =>
    simp only [listRun] at h
    cases h
    exact hinv
  | cons c rest ih =>
    simp only [listRun] at h
    cases hs : listStep w s c with
    | none => simp [hs] at h
    | some s1 =>
      rw [hs] at h
      exact ih (errInv_step hinv (hnc c (by simp)) hs)
        (fun c' hc' => hnc c' (by simp [hc'])) h

theorem listStep_progress (w : World) (s : ListState) (h : s.allReturned = false) :
    ∃ i s', listStep w s (ListChoice.advance i) = some s' := by
  have hex : ∃ t ∈ s.tasks, t.hasReturned = false := by
    by_contra hcon
    have hall : s.allReturned = true := by
      apply List.all_eq_true.2
      intro x hx
      cases hr : x.hasReturned with
      | true => rfl
      | false => exact absurd ⟨x, hx, hr⟩ hcon
    rw [hall] at h
    exact Bool.noConfusion h
  obtain ⟨t, ht, hr⟩ := hex
  obtain ⟨i, hi⟩ := List.mem_iff_getElem?.1 ht
  have hm : ∃ m, advanceTask w t = some m := by
    obtain ⟨schema, store, pc⟩ := t
    cases pc with
    | calling =>
      cases hl : w.list store schema with
      | error e => exact ⟨_, by simp only [advanceTask, hl]; rfl⟩
      | ok data => exact ⟨_, by simp only [advanceTask, hl]; rfl⟩
    | sending data next =>
      cases hd : data[next]? with
      | none => exact ⟨_, by simp only [advanceTask, hd]; rfl⟩
      | some item => exact ⟨_, by simp only [advanceTask, hd]; rfl⟩
    | returned err => simp [ListTask.hasReturned] at hr
  obtain ⟨m, hm⟩ := hm
  exact ⟨i, applyMove s i t m, by simp [listStep, hi, hm]⟩

theorem listRun_completes (w : World) (n : Nat) :
    ∀ s : ListState, s.fuel w ≤ n →
      ∃ schedule s', (∀ c ∈ schedule, c.isCancel = false) ∧
        listRun w s schedule = some s' ∧ s'.allReturned = true := by
  induction n with
  | zero =>
    intro s hs
    cases hr : s.allReturned with
    | true => exact ⟨[], s, by simp, rfl, hr⟩
    | false =>
      obtain ⟨i, s1, h1⟩ := listStep_progress w s hr
      have := listStep_fuel h1
      omega
  | succ n ih =>
    intro s hs
    cases hr : s.allReturned with
    | true => exact ⟨[], s, by simp, rfl, hr⟩
    | false =>
      obtain ⟨i, s1, h1⟩ := listStep_progress w s hr
      have hf := listStep_fuel h1
      obtain ⟨schedule, s', hnc, hrun, hdone⟩ := ih s1 (by omega)
      refine ⟨ListChoice.advance i :: schedule, s', ?_, ?_, hdone⟩
      · intro c hc
        rcases List.mem_cons.1 hc with h | h
        · subst h
          rfl
        · exact hnc c h
      · simp [listRun, h1, hrun]

theorem succeeded_iff (r : Except GoError (List Record)) :
    succeeded r = true ↔ ∃ data, r = Except.ok data := by
  cases r with
  | error e => simp [succeeded]
  | ok data => simp [succeeded]

theorem listStart_keys (a : AggregateStore) :
    (listStart a).tasks.map ListTask.key =
      a.Stores.map (fun e => (e.2, GoMap.get a.Schemas e.1)) := by
  simp [listStart, ListTask.key, List.map_map, Function.comp_def]

theorem listStart_okInv (a : AggregateStore) (w : World)
    (hok : ∀ e ∈ a.Stores, succeeded (backingList a w e) = true) :
    (listStart a).okInv w := by
  have hcall : ∀ t ∈ (listStart a).tasks, t.pc = ListPc.calling := by
    intro t ht
    simp only [listStart, List.mem_map] at ht
    obtain ⟨e, _, he⟩ := ht
    rw [← he]
  have hsent : ∀ t ∈ (listStart a).tasks, t.sent w = [] := by
    intro t ht
    simp [ListTask.sent, hcall t ht]
  refine ⟨rfl, rfl, ?_, ?_, ?_, ?_⟩
  · intro t ht
    simp only [listStart, List.mem_map] at ht
    obtain ⟨e, hmem, he⟩ := ht
    rw [← he]
    exact (succeeded_iff _).1 (hok e hmem)
  · intro t ht
    simp [ListTask.onTrack, hcall t ht]
  · have : (listStart a).tasks.flatMap (ListTask.sent w) = [] := by
      rw [List.flatMap_congr hsent]
      simp [List.flatMap_def]
    rw [this]
    exact List.Perm.refl _
  · intro t ht
    rw [hsent t ht]
    exact List.nil_sublist _

theorem listStart_errInv (a : AggregateStore) (w : World) : (listStart a).errInv w := by
  have hcall : ∀ t ∈ (listStart a).tasks, t.pc = ListPc.calling := by
    intro t ht
    simp only [listStart, List.mem_map] at ht
    obtain ⟨e, _, he⟩ := ht
    rw [← he]
  refine ⟨?_, ?_, ?_, ?_⟩
  · intro t ht e hpc
    rw [hcall t ht] at hpc
    exact ListPc.noConfusion hpc
  · intro e he
    simp [listStart] at he
  · intro h
    simp [listStart] at h
  · intro t ht
    simp [ListTask.consistent, hcall t ht]

theorem returned_sent {w : World} {t : ListTask} (h : t.hasReturned = true) :
    t.sent w = recordsOf (w.list t.key.1 t.key.2) := by
  obtain ⟨schema, store, pc⟩ := t
  cases pc with
  | calling => simp [ListTask.hasReturned] at h
  | sending data next => simp [ListTask.hasReturned] at h
  | returned err => rfl

theorem aggregateList_some {a : AggregateStore} {w : World} {schedule : List ListChoice}
    {res : List Record} {err : Option GoError}
    (h : aggregateList a w schedule = some (res, err)) :
    ∃ s, listRun w (listStart a) schedule = some s ∧ s.allReturned = true ∧
      s.result = res ∧ s.err = err := by
  unfold aggregateList at h
  cases hr : listRun w (listStart a) schedule with
  | none => simp [hr] at h
  | some s =>
    cases hd : s.allReturned with
    | false => simp [hr, hd] at h
    | true =>
      simp [hr, hd] at h
      exact ⟨s, rfl, hd, h.1, h.2⟩

/-! ## Lemmas on the machine of Watch -/

theorem watchStep_cases {w : World} {s s' : WatchState} {c : WatchChoice}
    (h : watchStep w s c = some s') :
    (∃ i t m, c = WatchChoice.advance i ∧ s.tasks[i]? = some t ∧
      streamStore w t = some m ∧ s' = applyWatchMove s i t m) ∨
    (c = WatchChoice.close ∧ s.allReturned = true ∧ s.closed = false ∧
      s' = { tasks := s.tasks, events := s.events, closed := true }) := by
  cases c with
  | advance i =>
    left
    simp only [watchStep] at h
    cases ht : s.tasks[i]? with
    | none => simp [ht] at h
    | some t =>
      cases hm : streamStore w t with
      | none => simp [ht, hm] at h
      | some m =>
        simp [ht, hm] at h
        exact ⟨i, t, m, rfl, ht, hm, h.symm⟩
  | close =>
    right
    simp only [watchStep] at h
    cases hr : s.allReturned <;> cases hc : s.closed <;> simp [hr, hc] at h
    exact ⟨rfl, rfl, rfl, h.symm⟩

theorem streamStore_onTrack {w : World} {t : WatchTask} {m : WatchMove}
    (ht : t.onTrack w) (hm : streamStore w t = some m) :
    WatchTask.onTrack w { schema := t.schema, pc := m.pc } ∧
    WatchTask.relayed w { schema := t.schema, pc := m.pc } =
      t.relayed w ++ m.event.toList ∧
    WatchTask.fuel w { schema := t.schema, pc := m.pc } < t.fuel w := by
  obtain ⟨schema, pc⟩ := t
  cases pc with
  | subscribing =>
    cases hr : w.watch schema.Store schema with
    | failed e =>
      simp only [streamStore, hr] at hm
      cases hm
      simp [WatchTask.onTrack, WatchTask.relayed, WatchTask.fuel, backingWatch, hr, eventsOf]
    | nothing =>
      simp only [streamStore, hr] at hm
      cases hm
      simp [WatchTask.onTrack, WatchTask.relayed, WatchTask.fuel, backingWatch, hr, eventsOf]
    | stream events closes =>
      simp only [streamStore, hr] at hm
      cases hm
      simp [WatchTask.onTrack, WatchTask.relayed, WatchTask.fuel, backingWatch, hr, eventsOf]
  | relaying events closes next =>
    simp only [WatchTask.onTrack] at ht
    cases hi : events[next]? with
    | some e =>
      simp only [streamStore, hi] at hm
      cases hm
      have hlt : next < events.length := by
        obtain ⟨h, _⟩ := List.getElem?_eq_some.1 hi
        exact h
      refine ⟨⟨ht.1, hlt⟩, ?_, ?_⟩
      · simp [WatchTask.relayed, List.take_succ, hi]
      · simp only [WatchTask.fuel]
        omega
    | none =>
      cases closes with
      | false => simp [streamStore, hi] at hm
      | true =>
        simp only [streamStore, hi, if_true] at hm
        cases hm
        have hge : events.length ≤ next := by
          by_contra hcon
          have hlt : next < events.length := Nat.lt_of_not_le hcon
          have hsome := List.getElem?_eq_some.2 ⟨hlt, rfl⟩
          rw [hi] at hsome
          exact Option.noConfusion hsome
        refine ⟨trivial, ?_, ?_⟩
        · simp [WatchTask.relayed, ht.1, eventsOf, List.take_of_length_le hge]
        · simp [WatchTask.fuel]
  | returned err => simp [streamStore] at hm

theorem streamStore_none_returned {w : World} {t : WatchTask}
    (hr : t.hasReturned = true) : streamStore w t = none := by
  obtain ⟨schema, pc⟩ := t
  cases pc with
  | subscribing => simp [WatchTask.hasReturned] at hr
  | relaying events closes next => simp [WatchTask.hasReturned] at hr
  | returned err => rfl

theorem watch_inv_step {w : World} {s s' : WatchState} {c : WatchChoice}
    (hinv : s.inv w) (h : watchStep w s c = some s') : s'.inv w := by
  obtain ⟨htrack, hperm, hsub, hclosed⟩ := hinv
  rcases watchStep_cases h with ⟨i, t, m, _, hti, hm, hs'⟩ | ⟨_, hall, _, hs'⟩
  · have htm := mem_of_getElem? hti
    obtain ⟨ht', hrel, _⟩ := streamStore_onTrack (htrack t htm) hm
    have hres : s'.events = s.events ++ m.event.toList := by
      rw [hs']
      cases hev : m.event <;> simp [applyWatchMove, hev]
    have hmem : ∀ x ∈ s'.tasks, x ∈ s.tasks ∨ x = { schema := t.schema, pc := m.pc } := by
      intro x hx
      rw [hs'] at hx
      exact List.mem_or_eq_of_mem_set hx
    have hnotclosed : s.closed = false := by
      cases hc : s.closed with
      | false => rfl
      | true =>
        have hr := List.all_eq_true.1 (hclosed hc) t htm
        rw [streamStore_none_returned hr] at hm
        exact Option.noConfusion hm
    refine ⟨?_, ?_, ?_, ?_⟩
    · intro x hx
      rcases hmem x hx with hx | hx
      · exact htrack x hx
      · subst hx
        exact ht'
    · rw [hres]
      have h1 := flatMap_set_perm (WatchTask.relayed w) s.tasks i t
        { schema := t.schema, pc := m.pc } m.event.toList hti hrel
      have h2 : s'.tasks = s.tasks.set i { schema := t.schema, pc := m.pc } := by
        rw [hs']
        rfl
      rw [h2]
      exact (List.Perm.append_right _ hperm).trans h1.symm
    · intro x hx
      rw [hres]
      rcases hmem x hx with hx | hx
      · exact (hsub x hx).trans (List.sublist_append_left _ _)
      · subst hx
        rw [hrel]
        exact List.Sublist.append (hsub t htm) (List.Sublist.refl _)
    · intro hc
      rw [hs'] at hc
      simp only [applyWatchMove] at hc
      rw [hnotclosed] at hc
      exact Bool.noConfusion hc
  · rw [hs']
    exact ⟨htrack, hperm, hsub, fun _ => hall⟩

theorem watchStep_fuel {w : World} {s s' : WatchState} {c : WatchChoice}
    (hinv : s.inv w) (h : watchStep w s c = some s') : s'.fuel w < s.fuel w := by
  rcases watchStep_cases h with ⟨i, t, m, _, hti, hm, hs'⟩ | ⟨_, _, hc, hs'⟩
  · obtain ⟨_, _, hlt⟩ := streamStore_onTrack (hinv.1 t (mem_of_getElem? hti)) hm
    have hsum := sum_map_set (WatchTask.fuel w) s.tasks i t
      { schema := t.schema, pc := m.pc } hti
    rw [hs']
    simp only [WatchState.fuel, applyWatchMove]
    omega
  · rw [hs']
    simp [WatchState.fuel, hc]

theorem watchStep_schemas {w : World} {s s' : WatchState} {c : WatchChoice}
    (h : watchStep w s c = some s') :
    s'.tasks.map WatchTask.schema = s.tasks.map WatchTask.schema := by
  rcases watchStep_cases h with ⟨i, t, m, _, hti, _, hs'⟩ | ⟨_, _, _, hs'⟩
  · rw [hs']
    exact map_set_same WatchTask.schema s.tasks i t _ hti rfl
  · rw [hs']

theorem watchRun_inv {w : World} {s s' : WatchState} {schedule : List WatchChoice}
    (hinv : s.inv w) (h : watchRun w s schedule = some s') :
    s'.inv w ∧ schedule.length + s'.fuel w ≤ s.fuel w ∧
      s'.tasks.map WatchTask.schema = s.tasks.map WatchTask.schema := by
  induction schedule generalizing s with
  | nil =>
    simp only [watchRun] at h
    cases h
    exact ⟨hinv, by simp, rfl⟩
  | cons c rest ih =>
    simp only [watchRun] at h
    cases hs : watchStep w s c with
    | none => simp [hs] at h
    | some s1 =>
      rw [hs] at h
      obtain ⟨h1, h2, h3⟩ := ih (watch_inv_step hinv hs) h
      have h4 := watchStep_fuel hinv hs
      refine ⟨h1, ?_, by rw [h3, watchStep_schemas hs]⟩
      simp only [List.length_cons]
      omega

theorem watchStart_inv (a : AggregateStore) (w : World) : (watchStart a).inv w := by
  have hsub : ∀ t ∈ (watchStart a).tasks, t.pc = WatchPc.subscribing := by
    intro t ht
    simp only [watchStart, List.mem_map] at ht
    obtain ⟨e, _, he⟩ := ht
    rw [← he]
  have hrel : ∀ t ∈ (watchStart a).tasks, t.relayed w = [] := by
    intro t ht
    simp [WatchTask.relayed, hsub t ht]
  refine ⟨?_, ?_, ?_, ?_⟩
  · intro t ht
    simp [WatchTask.onTrack, hsub t ht]
  · have : (watchStart a).tasks.flatMap (WatchTask.relayed w) = [] := by
      rw [List.flatMap_congr hrel]
      simp [List.flatMap_def]
    rw [this]
    exact List.Perm.refl _
  · intro t ht
    rw [hrel t ht]
    exact List.nil_sublist _
  · intro h
    simp [watchStart] at h

theorem watch_quiescent_task {w : World} {s : WatchState} (hinv : s.inv w)
    (hq : ∀ c, watchStep w s c = none) :
    ∀ t ∈ s.tasks, t.relayed w = eventsOf (backingWatch w t.schema) ∧
      (subscriptionEnds (backingWatch w t.schema) = true → t.hasReturned = true) := by
  intro t ht
  obtain ⟨i, hi⟩ := List.mem_iff_getElem?.1 ht
  have hnone : streamStore w t = none := by
    have := hq (WatchChoice.advance i)
    simp only [watchStep, hi] at this
    cases hm : streamStore w t with
    | none => rfl
    | some m => simp [hm] at this
  have htrack := hinv.1 t ht
  obtain ⟨schema, pc⟩ := t
  cases pc with
  | subscribing =>
    cases hr : w.watch schema.Store schema <;> simp [streamStore, hr] at hnone
  | relaying events closes next =>
    simp only [WatchTask.onTrack] at htrack
    cases hd : events[next]? with
    | some e => simp [streamStore, hd] at hnone
    | none =>
      cases closes with
      | true => simp [streamStore, hd] at hnone
      | false =>
        have hge : events.length ≤ next := by
          by_contra hcon
          have hlt : next < events.length := Nat.lt_of_not_le hcon
          have hsome := List.getElem?_eq_some.2 ⟨hlt, rfl⟩
          rw [hd] at hsome
          exact Option.noConfusion hsome
        refine ⟨?_, ?_⟩
        · simp [WatchTask.relayed, htrack.1, eventsOf, List.take_of_length_le hge]
        · intro hends
          simp [htrack.1, subscriptionEnds] at hends
  | returned err =>
    exact ⟨rfl, fun _ => rfl⟩

theorem watchRun_quiesces (w : World) (n : Nat) :
    ∀ s : WatchState, s.inv w → s.fuel w ≤ n →
      ∃ schedule s', watchRun w s schedule = some s' ∧ ∀ c, watchStep w s' c = none := by
  induction n with
  | zero =>
    intro s hinv hs
    by_cases hq : ∀ c, watchStep w s c = none
    · exact ⟨[], s, rfl, hq⟩
    · exfalso
      apply hq
      intro c
      cases hc : watchStep w s c with
      | none => rfl
      | some s1 =>
        have := watchStep_fuel hinv hc
        omega
  | succ n ih =>
    intro s hinv hs
    by_cases hq : ∀ c, watchStep w s c = none
    · exact ⟨[], s, rfl, hq⟩
    · have hex : ∃ c s1, watchStep w s c = some s1 := by
        by_contra hcon
        apply hq
        intro c
        cases hc : watchStep w s c with
        | none => rfl
        | some s1 => exact absurd ⟨c, s1, hc⟩ hcon
      obtain ⟨c, s1, hc⟩ := hex
      have hf := watchStep_fuel hinv hc
      obtain ⟨schedule, s', hrun, hq'⟩ := ih s1 (watch_inv_step hinv hc) (by omega)
      exact ⟨c :: schedule, s', by simp [watchRun, hc, hrun], hq'⟩

/-! ## Identifier codec -/

/-- C1: for an identifier with at least one colon, `splitTypeAndID` returns
the text before the first colon (which has no colon) and everything after it,
so that kind, colon and local id concatenate back to the identifier, with no
change of letter case; decoding `kind ++ ":" ++ local` for a colon-free kind
gives back `(kind, local)`, and `"job:abc"` gives `("job", "abc")`. -/
theorem splitTypeAndID_first_colon :
    (∀ id : String, ':' ∈ id.data →
      (splitTypeAndID id).1 ++ ":" ++ (splitTypeAndID id).2 = id ∧
      ':' ∉ (splitTypeAndID id).1.data) ∧
    (∀ kind loc : String, ':' ∉ kind.data →
      splitTypeAndID (kind ++ ":" ++ loc) = (kind, loc)) ∧
    splitTypeAndID "job:abc" = ("job", "abc") ∧
    splitTypeAndID "Job:a:B" = ("Job", "a:B") := by
  refine ⟨?_, splitTypeAndID_append, by decide, by decide⟩
  intro id h
  obtain ⟨pre, post, h1, h2, h3⟩ := cutFirst_some h
  have hs : splitTypeAndID id = (String.mk pre, String.mk post) := by
    simp [splitTypeAndID, splitN2, h1]
  rw [hs]
  refine ⟨?_, h2⟩
  apply String.ext
  simp [String.data_append, h3]

/-! ## Single-record router -/

/-- C2: `getStore` fails exactly when the decoded kind token has no entry in
the binding table; the error is then NotFound with the message "failed to find
type " followed by the token, and `ByID`, `Update` and `Delete` return that
error with a nil record and without any call to a backing collection. -/
theorem getStore_fails_iff_absent (a : AggregateStore) (id : String) :
    ((∃ e, getStore a id = Except.error e) ↔
      GoMap.get a.Stores (splitTypeAndID id).1 = none) ∧
    (GoMap.get a.Stores (splitTypeAndID id).1 = none →
      getStore a id = Except.error
        (GoError.apiError NotFound ("failed to find type " ++ (splitTypeAndID id).1)) ∧
      ∀ (w : World) (schema : Option Schema) (data : Record),
        ByID a w schema id =
          { record := none
            err := some (GoError.apiError NotFound
              ("failed to find type " ++ (splitTypeAndID id).1))
            calls := [] } ∧
        Update a w schema data id =
          { record := none
            err := some (GoError.apiError NotFound
              ("failed to find type " ++ (splitTypeAndID id).1))
            calls := [] } ∧
        Delete a w schema id =
          { record := none
            err := some (GoError.apiError NotFound
              ("failed to find type " ++ (splitTypeAndID id).1))
            calls := [] }) := by
  refine ⟨?_, ?_⟩
  · cases h : GoMap.get a.Stores (splitTypeAndID id).1 with
    | none => simp [getStore, h]
    | some st => simp [getStore, h]
  · intro h
    have hg : getStore a id = Except.error
        (GoError.apiError NotFound ("failed to find type " ++ (splitTypeAndID id).1)) := by
      simp [getStore, h, NewAPIError]
    refine ⟨hg, ?_⟩
    intro w schema data
    simp [ByID, Update, Delete, hg]

/-- C3: when the kind of an identifier resolves, `ByID`, `Update` and `Delete`
make exactly one call, the operation of the same name on the resolved store,
with the local id (the part after the first colon) and the schema the table
holds for that kind (whatever schema the caller passed), and return that
call's record and error as they are. -/
theorem router_delegates (a : AggregateStore) (w : World) (schema : Option Schema)
    (data : Record) (id : String) (st : Store)
    (h : GoMap.get a.Stores (splitTypeAndID id).1 = some st) :
    ByID a w schema id =
      { record := (w.reply (Call.byID st (GoMap.get a.Schemas (splitTypeAndID id).1)
          (splitTypeAndID id).2)).record
        err := (w.reply (Call.byID st (GoMap.get a.Schemas (splitTypeAndID id).1)
          (splitTypeAndID id).2)).err
        calls := [Call.byID st (GoMap.get a.Schemas (splitTypeAndID id).1)
          (splitTypeAndID id).2] } ∧
    Update a w schema data id =
      { record := (w.reply (Call.update st (GoMap.get a.Schemas (splitTypeAndID id).1)
          data (splitTypeAndID id).2)).record
        err := (w.reply (Call.update st (GoMap.get a.Schemas (splitTypeAndID id).1)
          data (splitTypeAndID id).2)).err
        calls := [Call.update st (GoMap.get a.Schemas (splitTypeAndID id).1)
          data (splitTypeAndID id).2] } ∧
    Delete a w schema id =
      { record := (w.reply (Call.delete st (GoMap.get a.Schemas (splitTypeAndID id).1)
          (splitTypeAndID id).2)).record
        err := (w.reply (Call.delete st (GoMap.get a.Schemas (splitTypeAndID id).1)
          (splitTypeAndID id).2)).err
        calls := [Call.delete st (GoMap.get a.Schemas (splitTypeAndID id).1)
          (splitTypeAndID id).2] } := by
  have hg : getStore a id = Except.ok (st, (splitTypeAndID id).1) := by
    simp [getStore, h]
  simp [ByID, Update, Delete, hg]

theorem getStore_fails_iff_absent_witness :
    GoMap.get sampleStore.Stores (splitTypeAndID "pod:abc").1 = none ∧
    getStore sampleStore "pod:abc" =
      Except.error (GoError.apiError NotFound "failed to find type pod") :=
  ⟨by decide, ((getStore_fails_iff_absent sampleStore "pod:abc").2 (by decide)).1⟩

theorem router_delegates_witness :
    GoMap.get sampleStore.Stores (splitTypeAndID "job:abc").1 = some { handle := 1 } ∧
    (ByID sampleStore sampleWorld (some deploymentSchema) "job:abc").calls =
      [Call.byID { handle := 1 } (some jobSchema) "abc"] :=
  ⟨by decide,
   congrArg Outcome.calls
     (router_delegates sampleStore sampleWorld (some deploymentSchema) [] "job:abc"
       { handle := 1 } (by decide)).1⟩

/-- C4, as the claim states it, fails: `Job` equals the registered ID `job`
ignoring case, yet `Job:abc` does not resolve, because `getStore` looks the
token up as written. -/
theorem getStore_mixed_case_counterexample :
    jobSchema ∈ [jobSchema] ∧ equalFold "Job" jobSchema.ID = true ∧
    getStore (NewAggregateStore [jobSchema]) ("Job" ++ ":" ++ "abc") =
      Except.error (GoError.apiError NotFound "failed to find type Job") ∧
    equalFold "cronJob" cronJobSchema.ID = true ∧
    getStore (NewAggregateStore [cronJobSchema]) ("cronJob" ++ ":" ++ "abc") =
      Except.error (GoError.apiError NotFound "failed to find type cronJob") :=
  ⟨by decide, by decide, rfl, by decide, rfl⟩

/-- C4, amended: the table of `NewAggregateStore` is keyed by the schema IDs
lower-cased by `strings.ToLower` (the parameter `lower`), and `getStore` looks
up the kind token as written.  For a token `T` without colon,
`T ++ ":" ++ local` resolves exactly when `T` is the lower-cased ID of a
registered schema, and then to the store and schema of the last such schema
with `T` as resolved kind; otherwise it fails with NotFound. -/
theorem getStore_resolves_lowercase_key (lower : String → String)
    (schemas : List Schema) (T loc : String) (hT : ':' ∉ T.data) :
    (∀ s, lastLowered lower schemas T = some s →
      s ∈ schemas ∧ lower s.ID = T ∧
      getStore (NewAggregateStoreWith lower schemas) (T ++ ":" ++ loc) =
        Except.ok (s.Store, T) ∧
      GoMap.get (NewAggregateStoreWith lower schemas).Schemas T = some s) ∧
    (lastLowered lower schemas T = none →
      (∀ s ∈ schemas, lower s.ID ≠ T) ∧
      getStore (NewAggregateStoreWith lower schemas) (T ++ ":" ++ loc) =
        Except.error (GoError.apiError NotFound ("failed to find type " ++ T))) ∧
    (∀ s ∈ schemas, lower s.ID = T → ∃ s', lastLowered lower schemas T = some s') := by
  have hsplit := splitTypeAndID_append T loc hT
  have htab := NewAggregateStoreWith_tables lower schemas T
  refine ⟨?_, ?_, ?_⟩
  · intro s hs
    obtain ⟨h1, h2⟩ := lastLowered_some hs
    refine ⟨h1, h2, ?_, ?_⟩
    · simp [getStore, hsplit, htab.2, hs]
    · rw [htab.1, hs]
  · intro hn
    refine ⟨lastLowered_none hn, ?_⟩
    simp [getStore, hsplit, htab.2, hn, NewAPIError]
  · intro s hs hk
    subst hk
    exact lastLowered_isSome lower hs

theorem getStore_resolves_lowercase_key_witness :
    ':' ∉ "cronjob".data ∧
    lastLowered toLower [deploymentSchema, jobSchema, cronJobSchema] "cronjob" =
      some cronJobSchema ∧
    getStore sampleStore ("cronjob" ++ ":" ++ "abc") =
      Except.ok (cronJobSchema.Store, "cronjob") ∧
    ':' ∉ "école".data ∧
    lastLowered latinLower [ecoleSchema] "école" = some ecoleSchema ∧
    getStore (NewAggregateStoreWith latinLower [ecoleSchema]) ("école" ++ ":" ++ "x") =
      Except.ok (ecoleSchema.Store, "école") ∧
    ':' ∉ "École".data ∧
    lastLowered latinLower [ecoleSchema] "École" = none ∧
    getStore (NewAggregateStoreWith latinLower [ecoleSchema]) ("École" ++ ":" ++ "x") =
      Except.error (GoError.apiError NotFound ("failed to find type " ++ "École")) :=
  ⟨by decide, by decide,
   ((getStore_resolves_lowercase_key toLower [deploymentSchema, jobSchema, cronJobSchema]
      "cronjob" "abc" (by decide)).1 cronJobSchema (by decide)).2.2.1,
   by decide, by decide,
   ((getStore_resolves_lowercase_key latinLower [ecoleSchema]
      "école" "x" (by decide)).1 ecoleSchema (by decide)).2.2.1,
   by decide, by decide,
   ((getStore_resolves_lowercase_key latinLower [ecoleSchema]
      "École" "x" (by decide)).2.1 (by decide)).2⟩

/-- C5, as the claim states it, fails: in a store that has an entry under the
empty kind, an identifier without colon resolves to that entry and `ByID`
reaches its backing collection. -/
theorem noColon_resolves_counterexample :
    ':' ∉ "nocolon".data ∧
    splitTypeAndID "nocolon" = ("", "") ∧
    getStore (NewAggregateStore [blankSchema]) "nocolon" =
      Except.ok ({ handle := 7 }, "") ∧
    (ByID (NewAggregateStore [blankSchema]) sampleWorld none "nocolon").calls =
      [Call.byID { handle := 7 } (some blankSchema) ""] :=
  ⟨by decide, by decide, rfl, rfl⟩

/-- C5, amended: for an identifier without colon `splitTypeAndID` returns two
empty strings; in every store whose table has no entry under the empty kind,
resolution then fails with NotFound, and `ByID`, `Update` and `Delete` return
that error without any call to a backing collection. -/
theorem noColon_notFound (a : AggregateStore) (id : String) (h : ':' ∉ id.data)
    (hE : GoMap.get a.Stores "" = none) :
    splitTypeAndID id = ("", "") ∧
    getStore a id = Except.error (GoError.apiError NotFound "failed to find type ") ∧
    ∀ (w : World) (schema : Option Schema) (data : Record),
      ByID a w schema id =
        { record := none
          err := some (GoError.apiError NotFound "failed to find type ")
          calls := [] } ∧
      Update a w schema data id =
        { record := none
          err := some (GoError.apiError NotFound "failed to find type ")
          calls := [] } ∧
      Delete a w schema id =
        { record := none
          err := some (GoError.apiError NotFound "failed to find type ")
          calls := [] } := by
  have hs := splitTypeAndID_noColon id h
  have hg : getStore a id =
      Except.error (GoError.apiError NotFound "failed to find type ") := by
    simp [getStore, hs, hE, NewAPIError]
  refine ⟨hs, hg, ?_⟩
  intro w schema data
  simp [ByID, Update, Delete, hg]

theorem noColon_notFound_witness :
    ':' ∉ "nocolon".data ∧ GoMap.get sampleStore.Stores "" = none ∧
    getStore sampleStore "nocolon" =
      Except.error (GoError.apiError NotFound "failed to find type ") :=
  ⟨by decide, by decide,
   (noColon_notFound sampleStore "nocolon" (by decide) (by decide)).2.1⟩

/-! ## Create: kind inference -/

/-- C7: for a kind ID that is neither `job` nor `cronJob` ignoring case, and a
payload whose selector is absent or empty and whose `namespaceId` and `name`
are the strings `ns` and `n`, after `setSelector`, and in the payload `Create`
hands on after all shaping steps, the selector is the map holding
`matchLabels` with the selector label set to `<kind>-<ns>-<n>`, and `labels`
and `workloadLabels` are maps holding the same token under the same key. -/
theorem setSelector_assigns_token (kind ns n : String) (data : Record) (w : World)
    (hk : isJob kind = false)
    (he : convert_IsEmpty (index data "selector") = true)
    (hns : GoMap.get data "namespaceId" = some (Value.str ns))
    (hn : GoMap.get data "name" = some (Value.str n)) :
    ∀ d, (d = setSelector kind data ∨ d = (shape w kind data).1) →
      index d "selector" =
        Value.map [("matchLabels", Value.map
          [("workload.user.cattle.io/workloadselector",
            Value.str (kind ++ "-" ++ ns ++ "-" ++ n))])] ∧
      (∃ m, index d "labels" = Value.map m ∧
        GoMap.get m "workload.user.cattle.io/workloadselector" =
          some (Value.str (kind ++ "-" ++ ns ++ "-" ++ n))) ∧
      (∃ m, index d "workloadLabels" = Value.map m ∧
        GoMap.get m "workload.user.cattle.io/workloadselector" =
          some (Value.str (kind ++ "-" ++ ns ++ "-" ++ n))) := by
  have hid : resolveWorkloadID kind data = kind ++ "-" ++ ns ++ "-" ++ n := by
    simp [resolveWorkloadID, index, hns, hn, fmtS]
  have hsel : ∀ k, index (setSelector kind data) k = index
      (GoMap.put (GoMap.put (GoMap.put data "selector"
        (Value.map [("matchLabels", Value.map
          [(SelectorLabel, Value.str (kind ++ "-" ++ ns ++ "-" ++ n))])]))
        "workloadLabels" (Value.map (GoMap.put (mapOrNew (index (GoMap.put data "selector"
          (Value.map [("matchLabels", Value.map
            [(SelectorLabel, Value.str (kind ++ "-" ++ ns ++ "-" ++ n))])]))
          "workloadLabels")) SelectorLabel (Value.str (kind ++ "-" ++ ns ++ "-" ++ n)))))
        "labels" (Value.map (GoMap.put (mapOrNew (index (GoMap.put (GoMap.put data "selector"
          (Value.map [("matchLabels", Value.map
            [(SelectorLabel, Value.str (kind ++ "-" ++ ns ++ "-" ++ n))])]))
          "workloadLabels" (Value.map (GoMap.put (mapOrNew (index (GoMap.put data "selector"
            (Value.map [("matchLabels", Value.map
              [(SelectorLabel, Value.str (kind ++ "-" ++ ns ++ "-" ++ n))])]))
            "workloadLabels")) SelectorLabel (Value.str (kind ++ "-" ++ ns ++ "-" ++ n)))))
          "labels")) SelectorLabel (Value.str (kind ++ "-" ++ ns ++ "-" ++ n))))) k := by
    intro k
    simp [setSelector, he, hk, hid]
  have base : index (setSelector kind data) "selector" =
        Value.map [("matchLabels", Value.map
          [("workload.user.cattle.io/workloadselector",
            Value.str (kind ++ "-" ++ ns ++ "-" ++ n))])] ∧
      (∃ m, index (setSelector kind data) "labels" = Value.map m ∧
        GoMap.get m "workload.user.cattle.io/workloadselector" =
          some (Value.str (kind ++ "-" ++ ns ++ "-" ++ n))) ∧
      (∃ m, index (setSelector kind data) "workloadLabels" = Value.map m ∧
        GoMap.get m "workload.user.cattle.io/workloadselector" =
          some (Value.str (kind ++ "-" ++ ns ++ "-" ++ n))) := by
    refine ⟨?_, ?_, ?_⟩
    · rw [hsel, index_put_ne _ _ (by decide), index_put_ne _ _ (by decide),
        index_put_same]
      rfl
    · rw [hsel, index_put_same]
      exact ⟨_, rfl, GoMap.get_put_same _ _ _⟩
    · rw [hsel, index_put_ne _ _ (by decide), index_put_same]
      exact ⟨_, rfl, GoMap.get_put_same _ _ _⟩
  intro d hd
  rcases hd with hd | hd
  · subst hd
    exact base
  · have hshape : ∀ k, "imagePullSecrets" ≠ k →
        index d k = index (setSelector kind data) k := by
      intro k hne
      rw [hd]
      simp only [shape]
      rw [setSecrets_index _ _ hne, setWorkloadSpecificDefaults_notJob _ hk]
    rw [hshape "selector" (by decide), hshape "labels" (by decide),
      hshape "workloadLabels" (by decide)]
    exact base

theorem setSelector_assigns_token_witness :
    isJob "deployment" = false ∧
    convert_IsEmpty (index webPayload "selector") = true ∧
    index (setSelector "deployment" webPayload) "selector" =
      Value.map [("matchLabels", Value.map
        [("workload.user.cattle.io/workloadselector",
          Value.str ("deployment" ++ "-" ++ "ns1" ++ "-" ++ "web"))])] :=
  ⟨by decide, by decide,
   (setSelector_assigns_token "deployment" "ns1" "web" webPayload sampleWorld
      (by decide) (by decide) rfl rfl (setSelector "deployment" webPayload)
      (Or.inl rfl)).1⟩

/-- C8: when the selector of the payload is not empty, or the kind ID is `job`
or `cronJob` ignoring case, `setSelector` returns the payload as it received
it: selector, labels, workloadLabels and every other field are untouched. -/
theorem setSelector_noop (kind : String) (data : Record)
    (h : convert_IsEmpty (index data "selector") = false ∨ isJob kind = true) :
    setSelector kind data = data := by
  rcases h with h | h <;> simp [setSelector, h]

theorem setSelector_noop_witness :
    isJob "CronJob" = true ∧
    setSelector "CronJob" webPayload = webPayload :=
  ⟨by decide, setSelector_noop "CronJob" webPayload (Or.inr (by decide))⟩

/-- C9: `setWorkloadSpecificDefaults` adds restartPolicy `OnFailure` exactly
when the kind ID is `job` or `cronJob` ignoring case and the payload has no
restartPolicy field; a payload that has the field is returned as it is, and
so is every payload for any other kind. -/
theorem setWorkloadSpecificDefaults_restartPolicy (kind : String) (data : Record) :
    (isJob kind = true → GoMap.get data "restartPolicy" = none →
      setWorkloadSpecificDefaults kind data =
        GoMap.put data "restartPolicy" (Value.str "OnFailure") ∧
      GoMap.get (setWorkloadSpecificDefaults kind data) "restartPolicy" =
        some (Value.str "OnFailure")) ∧
    (∀ v, GoMap.get data "restartPolicy" = some v →
      setWorkloadSpecificDefaults kind data = data) ∧
    (isJob kind = false → setWorkloadSpecificDefaults kind data = data) := by
  refine ⟨?_, ?_, ?_⟩
  · intro hk hn
    have h : setWorkloadSpecificDefaults kind data =
        GoMap.put data "restartPolicy" (Value.str "OnFailure") := by
      simp [setWorkloadSpecificDefaults, hk, hn]
    exact ⟨h, by rw [h, GoMap.get_put_same]⟩
  · intro v hv
    by_cases hk : isJob kind = true
    · simp [setWorkloadSpecificDefaults, hk, hv]
    · simp [setWorkloadSpecificDefaults, hk]
  · intro hk
    exact setWorkloadSpecificDefaults_notJob data hk

theorem setWorkloadSpecificDefaults_restartPolicy_witness :
    isJob "job" = true ∧ GoMap.get webPayload "restartPolicy" = none ∧
    setWorkloadSpecificDefaults "job" webPayload =
      GoMap.put webPayload "restartPolicy" (Value.str "OnFailure") :=
  ⟨by decide, by rfl,
   ((setWorkloadSpecificDefaults_restartPolicy "job" webPayload).1
      (by decide) (by rfl)).1⟩

/-- C10: for a payload whose imagePullSecrets is absent or null and whose
containers sequence is not empty, `setSecrets` computes the concatenation, in
container order and without removing duplicates, of the index entries of the
registry domain of every container that has a non-empty image; it writes this
sequence to imagePullSecrets when it is not empty and returns the payload
unchanged otherwise.  The loop of `setSecrets` computes this concatenation for
every index. -/
theorem setSecrets_concatenates (w : World) (data : Record)
    (hv : index data "imagePullSecrets" = Value.null)
    (hc : 0 < (values_GetSlice data "containers").length) :
    (∀ (idx : GoMap (List LocalObjectReference)) (containers : List Record),
      collectSecrets w idx containers [] = containers.flatMap (containerSecrets w idx)) ∧
    ((values_GetSlice data "containers").flatMap (containerSecrets w (getCreds w)) ≠ [] →
      (setSecrets w data).1 = GoMap.put data "imagePullSecrets" (Value.refs
        ((values_GetSlice data "containers").flatMap (containerSecrets w (getCreds w))))) ∧
    ((values_GetSlice data "containers").flatMap (containerSecrets w (getCreds w)) = [] →
      (setSecrets w data).1 = data) := by
  have hloop : ∀ (idx : GoMap (List LocalObjectReference)) (containers : List Record),
      collectSecrets w idx containers [] =
        containers.flatMap (containerSecrets w idx) := by
    intro idx containers
    simp [collectSecrets_eq]
  have hlen : (values_GetSlice data "containers").length > 0 := hc
  refine ⟨hloop, ?_, ?_⟩
  · intro hne
    simp [setSecrets, values_GetValue, hv, hlen, asRefs, hloop, hne, values_PutValue]
  · intro hem
    simp [setSecrets, values_GetValue, hv, hlen, asRefs, hloop, hem]

theorem setSecrets_concatenates_witness :
    index threeContainers "imagePullSecrets" = Value.null ∧
    0 < (values_GetSlice threeContainers "containers").length ∧
    (setSecrets sampleWorld threeContainers).1 =
      GoMap.put threeContainers "imagePullSecrets" (Value.refs
        ((values_GetSlice threeContainers "containers").flatMap
          (containerSecrets sampleWorld (getCreds sampleWorld)))) ∧
    (values_GetSlice threeContainers "containers").flatMap
        (containerSecrets sampleWorld (getCreds sampleWorld)) =
      [⟨"ns-cred"⟩, ⟨"global-cred"⟩, ⟨"global-cred"⟩, ⟨"ns-cred"⟩, ⟨"global-cred"⟩] :=
  ⟨rfl, by decide,
   (setSecrets_concatenates sampleWorld threeContainers rfl (by decide)).2.1 (by decide),
   by decide⟩

/-! ## Create: registry credentials -/

/-- C11: a payload whose imagePullSecrets is set to a non-null value is
returned by `setSecrets` exactly as received, whatever its containers, and
the credential catalog is not queried; the same holds for a payload whose
containers sequence is absent or empty. -/
theorem setSecrets_skips (w : World) (data : Record) :
    (index data "imagePullSecrets" ≠ Value.null → setSecrets w data = (data, [])) ∧
    (GoMap.get data "containers" = none ∨
      GoMap.get data "containers" = some (Value.list []) ∨
      values_GetSlice data "containers" = [] →
      setSecrets w data = (data, [])) := by
  refine ⟨?_, ?_⟩
  · intro hv
    unfold setSecrets values_GetValue
    cases h : index data "imagePullSecrets" with
    | null => exact absurd h hv
    | bool b => rfl
    | int n => rfl
    | str t => rfl
    | list xs => rfl
    | map m => rfl
    | refs rs => rfl
  · intro hc
    have hs : values_GetSlice data "containers" = [] := by
      rcases hc with h | h | h
      · simp [values_GetSlice, h]
      · simp [values_GetSlice, h, convert_ToMapSlice, toMapSliceAux]
      · exact h
    unfold setSecrets values_GetValue
    cases index data "imagePullSecrets" <;> simp [hs]

theorem setSecrets_skips_witness :
    index [("imagePullSecrets", Value.refs [⟨"mine"⟩]),
      ("containers", Value.list [Value.map [("image", Value.str "nginx")]])]
      "imagePullSecrets" ≠ Value.null ∧
    setSecrets sampleWorld
      [("imagePullSecrets", Value.refs [⟨"mine"⟩]),
       ("containers", Value.list [Value.map [("image", Value.str "nginx")]])] =
      ([("imagePullSecrets", Value.refs [⟨"mine"⟩]),
        ("containers", Value.list [Value.map [("image", Value.str "nginx")]])], []) ∧
    GoMap.get webPayload "containers" = none ∧
    setSecrets sampleWorld webPayload = (webPayload, []) :=
  ⟨fun h => Value.noConfusion h,
   (setSecrets_skips sampleWorld
      [("imagePullSecrets", Value.refs [⟨"mine"⟩]),
       ("containers", Value.list [Value.map [("image", Value.str "nginx")]])]).1
      (fun h => Value.noConfusion h),
   rfl,
   (setSecrets_skips sampleWorld webPayload).2 (Or.inl rfl)⟩

/-- C12: for a registry map (unique keys), `store` appends one reference named
`name` to the sequence of every domain of the map, starting from the empty
sequence for a domain the index did not have, and leaves the sequence of every
other domain as it was; so the index of `getCreds` holds, per domain, the
references of the namespaced credentials naming the domain followed by those
of the global credentials naming it, each in catalog order. -/
theorem store_accumulates (registries : GoMap RegistryCredential)
    (idx : GoMap (List LocalObjectReference)) (name : String)
    (hnd : (registries.map Prod.fst).Nodup) :
    (∀ d, d ∈ registries.map Prod.fst →
      GoMap.get (store registries idx name) d =
        some ((GoMap.get idx d).getD [] ++ [{ Name := name }])) ∧
    (∀ d, d ∉ registries.map Prod.fst →
      GoMap.get (store registries idx name) d = GoMap.get idx d) ∧
    (∀ (w : World) (d : String),
      (∀ c ∈ credsOf w.namespacedCreds, (c.Registries.map Prod.fst).Nodup) →
      (∀ c ∈ credsOf w.creds, (c.Registries.map Prod.fst).Nodup) →
      (GoMap.get (getCreds w) d).getD [] =
        refsNaming d (credsOf w.namespacedCreds) ++ refsNaming d (credsOf w.creds)) := by
  refine ⟨fun d hd => store_get_mem registries idx name d hnd hd,
    fun d hd => store_get_notMem registries idx name d hd, ?_⟩
  intro w d h1 h2
  rw [getCreds_eq, storeAll_getD _ _ _ h2, storeAll_getD _ _ _ h1]
  simp [GoMap.get]

theorem store_accumulates_witness :
    ([("myregistry.io", (⟨"u", "p"⟩ : RegistryCredential)),
      ("index.docker.io", ⟨"u", "p"⟩)].map Prod.fst).Nodup ∧
    GoMap.get (store [("myregistry.io", ⟨"u", "p"⟩), ("index.docker.io", ⟨"u", "p"⟩)]
      [("myregistry.io", [⟨"ns-cred"⟩])] "global-cred") "myregistry.io" =
      some ((GoMap.get [("myregistry.io", [(⟨"ns-cred"⟩ : LocalObjectReference)])]
        "myregistry.io").getD [] ++ [{ Name := "global-cred" }]) ∧
    (GoMap.get (getCreds sampleWorld) "myregistry.io").getD [] =
      [⟨"ns-cred"⟩, ⟨"global-cred"⟩] :=
  ⟨by decide,
   (store_accumulates [("myregistry.io", ⟨"u", "p"⟩), ("index.docker.io", ⟨"u", "p"⟩)]
      [("myregistry.io", [⟨"ns-cred"⟩])] "global-cred" (by decide)).1
      "myregistry.io" (by decide),
   by decide⟩

theorem Create_congr (a : AggregateStore) (w w' : World) (schema : Option Schema)
    (data : Record) (hr : w.reply = w'.reply)
    (hn : w.normalizedDomain = w'.normalizedDomain) (hc : getCreds w = getCreds w') :
    Create a w schema data = Create a w' schema data := by
  simp only [Create, shape, setSecrets_congr w w' hn hc, hr]

/-- C13: whatever the two credential list queries return, `getCreds` yields an
index, a failed query counting as one that found no credentials, and `Create`
returns the record and the error of the create call on the selected backing
collection with the shaped payload; a failing query gives the same outcome of
`Create` as a query that returns nothing. -/
theorem Create_ignores_catalog_failures (a : AggregateStore) (w : World)
    (schema : Option Schema) (data : Record) (sch : Schema) (st : Store)
    (h : createTarget a data = (some sch, some st)) :
    Create a w schema data =
      Except.ok
        { record := (w.reply (Call.create st (some sch) (shape w sch.ID data).1)).record
          err := (w.reply (Call.create st (some sch) (shape w sch.ID data).1)).err
          calls := (shape w sch.ID data).2 ++
            [Call.create st (some sch) (shape w sch.ID data).1] } ∧
    (∀ e, getCreds { w with namespacedCreds := Except.error e } =
      getCreds { w with namespacedCreds := Except.ok [] }) ∧
    (∀ e, getCreds { w with creds := Except.error e } =
      getCreds { w with creds := Except.ok [] }) ∧
    (∀ e e', getCreds { w with namespacedCreds := Except.error e,
                               creds := Except.error e' } = []) ∧
    (∀ e, Create a { w with namespacedCreds := Except.error e } schema data =
      Create a { w with namespacedCreds := Except.ok [] } schema data) ∧
    (∀ e, Create a { w with creds := Except.error e } schema data =
      Create a { w with creds := Except.ok [] } schema data) := by
  have h1 : ∀ e, getCreds { w with namespacedCreds := Except.error e } =
      getCreds { w with namespacedCreds := Except.ok [] } := by
    intro e
    simp [getCreds_eq, credsOf, storeAll]
  have h2 : ∀ e, getCreds { w with creds := Except.error e } =
      getCreds { w with creds := Except.ok [] } := by
    intro e
    simp [getCreds_eq, credsOf, storeAll]
  refine ⟨?_, h1, h2, ?_, ?_, ?_⟩
  · simp [Create, h]
  · intro e e'
    simp [getCreds_eq, credsOf, storeAll]
  · intro e
    exact Create_congr a _ _ schema data rfl rfl (h1 e)
  · intro e
    exact Create_congr a _ _ schema data rfl rfl (h2 e)

theorem Create_ignores_catalog_failures_witness :
    createTarget sampleStore threeContainers =
      (some deploymentSchema, some deploymentSchema.Store) ∧
    Create sampleStore
      { sampleWorld with namespacedCreds := Except.error (GoError.other "timeout"),
                         creds := Except.error (GoError.other "timeout") }
      none threeContainers =
      Except.ok
        { record := some (setSelector "deployment" threeContainers)
          err := none
          calls := [Call.listNamespacedDockerCredential, Call.listDockerCredential,
            Call.create deploymentSchema.Store (some deploymentSchema)
              (setSelector "deployment" threeContainers)] } :=
  ⟨by decide,
   (Create_ignores_catalog_failures sampleStore
      { sampleWorld with namespacedCreds := Except.error (GoError.other "timeout"),
                         creds := Except.error (GoError.other "timeout") }
      none threeContainers deploymentSchema deploymentSchema.Store (by decide)).1⟩

/-- C14: `getDomain` always returns a string: the empty string when the image
does not normalize, `index.docker.io` when the normalized domain is
`docker.io`, the normalized domain itself otherwise; it never returns
`docker.io`, and where normalization gives `docker.io` for `nginx` and
`myregistry.io` for `myregistry.io/foo` it returns `index.docker.io` and
`myregistry.io` for them. -/
theorem getDomain_cases (w : World) (image : String) :
    (w.normalizedDomain image = none → getDomain w image = "") ∧
    (w.normalizedDomain image = some "docker.io" →
      getDomain w image = "index.docker.io") ∧
    (∀ d, w.normalizedDomain image = some d → d ≠ "docker.io" →
      getDomain w image = d) ∧
    getDomain w image ≠ "docker.io" ∧
    (w.normalizedDomain "nginx" = some "docker.io" →
      getDomain w "nginx" = "index.docker.io") ∧
    (w.normalizedDomain "myregistry.io/foo" = some "myregistry.io" →
      getDomain w "myregistry.io/foo" = "myregistry.io") := by
  refine ⟨?_, ?_, ?_, ?_, ?_, ?_⟩
  · intro h
    simp [getDomain, h]
  · intro h
    simp [getDomain, h]
  · intro d h hd
    simp [getDomain, h, hd]
  · unfold getDomain
    cases h : w.normalizedDomain image with
    | none => simp
    | some d =>
      by_cases hd : d = "docker.io"
      · simp [hd]
      · simp [hd]
  · intro h
    simp [getDomain, h]
  · intro h
    simp [getDomain, h]

theorem getDomain_cases_witness :
    sampleWorld.normalizedDomain "nginx" = some "docker.io" ∧
    getDomain sampleWorld "nginx" = "index.docker.io" ∧
    sampleWorld.normalizedDomain "myregistry.io/foo" = some "myregistry.io" ∧
    getDomain sampleWorld "myregistry.io/foo" = "myregistry.io" ∧
    sampleWorld.normalizedDomain "%%" = none ∧
    getDomain sampleWorld "%%" = "" :=
  ⟨by decide, (getDomain_cases sampleWorld "nginx").2.1 (by decide),
   by decide, (getDomain_cases sampleWorld "myregistry.io/foo").2.2.2.2.2 (by decide),
   by decide, (getDomain_cases sampleWorld "%%").1 (by decide)⟩

/-! ## The binding table -/

/-- C17: in the table `NewAggregateStore` builds, with `strings.ToLower` as the
parameter `lower`: for every schema with ID `K` the entry of `Schemas` under
the lower-cased `K` is the last schema given whose lower-cased ID is that key,
the entry of `Stores` under it is the store of that same schema, and
`FieldToSchemaID` maps `K ++ "Config"` (`K` as written) to the lower-cased `K`;
`Schemas` and `Stores` have the same keys, every key is the lower-cased ID of a
schema given (so it is lower-case: lower-casing it again changes nothing), and
every value of `FieldToSchemaID` is a key of both. -/
theorem NewAggregateStore_binding_table (lower : String → String)
    (schemas : List Schema) :
    (∀ s ∈ schemas, ∃ s' ∈ schemas,
      lastLowered lower schemas (lower s.ID) = some s' ∧
      lower s'.ID = lower s.ID ∧
      GoMap.get (NewAggregateStoreWith lower schemas).Schemas (lower s.ID) = some s' ∧
      GoMap.get (NewAggregateStoreWith lower schemas).Stores (lower s.ID) =
        some s'.Store ∧
      GoMap.get (NewAggregateStoreWith lower schemas).FieldToSchemaID (s.ID ++ "Config") =
        some (lower s.ID)) ∧
    (NewAggregateStoreWith lower schemas).Schemas.map Prod.fst =
      (NewAggregateStoreWith lower schemas).Stores.map Prod.fst ∧
    (∀ k ∈ (NewAggregateStoreWith lower schemas).Schemas.map Prod.fst,
      ∃ s ∈ schemas, k = lower s.ID) ∧
    ((∀ t, lower (lower t) = lower t) →
      ∀ k ∈ (NewAggregateStoreWith lower schemas).Schemas.map Prod.fst, lower k = k) ∧
    (∀ f k, GoMap.get (NewAggregateStoreWith lower schemas).FieldToSchemaID f = some k →
      k ∈ (NewAggregateStoreWith lower schemas).Schemas.map Prod.fst ∧
      k ∈ (NewAggregateStoreWith lower schemas).Stores.map Prod.fst) := by
  have hkey : ∀ s ∈ schemas,
      lower s.ID ∈ (NewAggregateStoreWith lower schemas).Schemas.map Prod.fst := by
    intro s hs
    obtain ⟨s', hs'⟩ := lastLowered_isSome lower hs
    apply (GoMap.get_isSome_iff _ _).1
    rw [(NewAggregateStoreWith_tables lower schemas _).1, hs']
    rfl
  have hfrom : ∀ k ∈ (NewAggregateStoreWith lower schemas).Schemas.map Prod.fst,
      ∃ s ∈ schemas, k = lower s.ID := by
    intro k hk
    have hsome := (GoMap.get_isSome_iff _ _).2 hk
    rw [(NewAggregateStoreWith_tables lower schemas k).1] at hsome
    cases h : lastLowered lower schemas k with
    | none => simp [h] at hsome
    | some s =>
      obtain ⟨h1, h2⟩ := lastLowered_some h
      exact ⟨s, h1, h2.symm⟩
  refine ⟨?_, tablesWith_keys_eq lower schemas, hfrom, ?_, ?_⟩
  · intro s hs
    obtain ⟨s', hs'⟩ := lastLowered_isSome lower hs
    obtain ⟨h1, h2⟩ := lastLowered_some hs'
    refine ⟨s', h1, hs', h2, ?_, ?_, fieldTableWith_get hs⟩
    · rw [(NewAggregateStoreWith_tables lower schemas _).1, hs']
    · rw [(NewAggregateStoreWith_tables lower schemas _).2, hs']
      rfl
  · intro hidem k hk
    obtain ⟨s, _, hs⟩ := hfrom k hk
    rw [hs, hidem]
  · intro f k hf
    obtain ⟨s, hs, _, h2⟩ := fieldTableWith_mem (GoMap.mem_of_get hf)
    rw [h2]
    exact ⟨hkey s hs, by rw [← tablesWith_keys_eq]; exact hkey s hs⟩

theorem NewAggregateStore_binding_table_witness :
    cronJobSchema ∈ [deploymentSchema, jobSchema, cronJobSchema] ∧
    GoMap.get sampleStore.FieldToSchemaID "cronJobConfig" = some "cronjob" ∧
    GoMap.get sampleStore.Schemas "cronjob" = some cronJobSchema ∧
    GoMap.get (NewAggregateStoreWith latinLower [ecoleSchema]).Schemas "école" =
      some ecoleSchema ∧
    GoMap.get (NewAggregateStoreWith latinLower [ecoleSchema]).FieldToSchemaID
      "ÉCOLEConfig" = some "école" ∧
    (∀ k ∈ (NewAggregateStoreWith toLower
        [deploymentSchema, jobSchema, cronJobSchema]).Schemas.map Prod.fst,
      toLower k = k) ∧
    ∃ s' ∈ [deploymentSchema, jobSchema, cronJobSchema],
      lastLowered toLower [deploymentSchema, jobSchema, cronJobSchema]
        (toLower cronJobSchema.ID) = some s' ∧
      toLower s'.ID = toLower cronJobSchema.ID ∧
      GoMap.get (NewAggregateStoreWith toLower
        [deploymentSchema, jobSchema, cronJobSchema]).Schemas
        (toLower cronJobSchema.ID) = some s' ∧
      GoMap.get (NewAggregateStoreWith toLower
        [deploymentSchema, jobSchema, cronJobSchema]).Stores
        (toLower cronJobSchema.ID) = some s'.Store ∧
      GoMap.get (NewAggregateStoreWith toLower
        [deploymentSchema, jobSchema, cronJobSchema]).FieldToSchemaID
        (cronJobSchema.ID ++ "Config") = some (toLower cronJobSchema.ID) :=
  ⟨by decide, by decide, by decide, by decide, by decide,
   (NewAggregateStore_binding_table toLower
     [deploymentSchema, jobSchema, cronJobSchema]).2.2.2.1 toLower_idem,
   (NewAggregateStore_binding_table toLower
     [deploymentSchema, jobSchema, cronJobSchema]).1 cronJobSchema (by decide)⟩

/-! ## Create: merge and frame -/

/-- C18: for a kind that is not `job` or `cronJob` and a payload with an empty
or absent selector, `setSelector` merges into `labels` and into
`workloadLabels`: when the field is a map, the result is that map with the
selector label put into it, so every other key keeps its value and the only
key gained is the selector label; when the field is absent, the result is a
new map that holds the selector label alone. -/
theorem setSelector_merges (kind : String) (data : Record)
    (hk : isJob kind = false)
    (he : convert_IsEmpty (index data "selector") = true) :
    ∀ field, field = "labels" ∨ field = "workloadLabels" →
      (∀ m, GoMap.get data field = some (Value.map m) →
        ∃ m', index (setSelector kind data) field = Value.map m' ∧
          m' = GoMap.put m "workload.user.cattle.io/workloadselector"
            (Value.str (resolveWorkloadID kind data)) ∧
          (∀ k, k ≠ "workload.user.cattle.io/workloadselector" →
            GoMap.get m' k = GoMap.get m k) ∧
          GoMap.get m' "workload.user.cattle.io/workloadselector" =
            some (Value.str (resolveWorkloadID kind data)) ∧
          (∀ k, (GoMap.get m' k).isSome = true ↔
            (k = "workload.user.cattle.io/workloadselector" ∨
              (GoMap.get m k).isSome = true))) ∧
      (GoMap.get data field = none →
        index (setSelector kind data) field =
          Value.map [("workload.user.cattle.io/workloadselector",
            Value.str (resolveWorkloadID kind data))]) := by
  have hsel : setSelector kind data =
      GoMap.put (GoMap.put (GoMap.put data "selector"
        (Value.map [("matchLabels", Value.map
          [(SelectorLabel, Value.str (resolveWorkloadID kind data))])]))
        "workloadLabels" (Value.map (GoMap.put (mapOrNew (index (GoMap.put data "selector"
          (Value.map [("matchLabels", Value.map
            [(SelectorLabel, Value.str (resolveWorkloadID kind data))])]))
          "workloadLabels")) SelectorLabel (Value.str (resolveWorkloadID kind data)))))
        "labels" (Value.map (GoMap.put (mapOrNew (index (GoMap.put (GoMap.put data "selector"
          (Value.map [("matchLabels", Value.map
            [(SelectorLabel, Value.str (resolveWorkloadID kind data))])]))
          "workloadLabels" (Value.map (GoMap.put (mapOrNew (index (GoMap.put data "selector"
            (Value.map [("matchLabels", Value.map
              [(SelectorLabel, Value.str (resolveWorkloadID kind data))])]))
            "workloadLabels")) SelectorLabel (Value.str (resolveWorkloadID kind data)))))
          "labels")) SelectorLabel (Value.str (resolveWorkloadID kind data)))) := by
    simp [setSelector, he, hk]
  have hL : index (setSelector kind data) "labels" =
      Value.map (GoMap.put (mapOrNew (index data "labels")) SelectorLabel
        (Value.str (resolveWorkloadID kind data))) := by
    rw [hsel, index_put_same, index_put_ne _ _ (by decide), index_put_ne _ _ (by decide)]
  have hW : index (setSelector kind data) "workloadLabels" =
      Value.map (GoMap.put (mapOrNew (index data "workloadLabels")) SelectorLabel
        (Value.str (resolveWorkloadID kind data))) := by
    rw [hsel, index_put_ne _ _ (by decide), index_put_same, index_put_ne _ _ (by decide)]
  have hF : ∀ field, field = "labels" ∨ field = "workloadLabels" →
      index (setSelector kind data) field =
        Value.map (GoMap.put (mapOrNew (index data field)) SelectorLabel
          (Value.str (resolveWorkloadID kind data))) := by
    intro field hf
    rcases hf with hf | hf <;> subst hf
    · exact hL
    · exact hW
  intro field hf
  refine ⟨?_, ?_⟩
  · intro m hm
    have hmap : mapOrNew (index data field) = m := by
      simp [index, hm, mapOrNew, convert_ToMapInterface]
    refine ⟨_, by rw [hF field hf, hmap]; rfl, rfl, ?_, ?_, ?_⟩
    · intro k hne
      exact GoMap.get_put_ne m _ (fun e => hne e.symm)
    · exact GoMap.get_put_same m _ _
    · intro k
      rw [GoMap.get_put]
      by_cases hkk : "workload.user.cattle.io/workloadselector" = k
      · simp [hkk]
      · have hkk' : ¬ k = "workload.user.cattle.io/workloadselector" :=
          fun e => hkk e.symm
        simp [hkk, hkk']
  · intro hn
    have hmap : mapOrNew (index data field) = [] := by
      simp [index, hn, mapOrNew, convert_ToMapInterface]
    rw [hF field hf, hmap]
    rfl

theorem setSelector_merges_witness :
    isJob "deployment" = false ∧
    convert_IsEmpty (index [("labels", Value.map [("app", Value.str "web")])]
      "selector") = true ∧
    index (setSelector "deployment" [("labels", Value.map [("app", Value.str "web")])])
      "workloadLabels" =
      Value.map [("workload.user.cattle.io/workloadselector",
        Value.str (resolveWorkloadID "deployment"
          [("labels", Value.map [("app", Value.str "web")])]))] ∧
    index (setSelector "deployment" [("labels", Value.map [("app", Value.str "web")])])
      "labels" =
      Value.map [("app", Value.str "web"),
        ("workload.user.cattle.io/workloadselector",
          Value.str "deployment-%!s(<nil>)-%!s(<nil>)")] :=
  ⟨by decide, by decide,
   ((setSelector_merges "deployment" [("labels", Value.map [("app", Value.str "web")])]
      (by decide) (by decide)) "workloadLabels" (Or.inr rfl)).2 rfl,
   rfl⟩

/-- C19: the payload `Create` hands to the create call of the selected backing
collection is the caller's payload after the three shaping steps; each field
other than selector, labels, workloadLabels, restartPolicy and
imagePullSecrets is present in it exactly when the caller's payload has it,
with the same value, and every field of the caller's payload is still
present. -/
theorem Create_frame (a : AggregateStore) (w : World) (schema : Option Schema)
    (data : Record) (sch : Schema) (st : Store)
    (h : createTarget a data = (some sch, some st)) :
    ∃ handed, Create a w schema data =
        Except.ok
          { record := (w.reply (Call.create st (some sch) handed)).record
            err := (w.reply (Call.create st (some sch) handed)).err
            calls := (shape w sch.ID data).2 ++ [Call.create st (some sch) handed] } ∧
      handed = (shape w sch.ID data).1 ∧
      (∀ k, k ≠ "selector" → k ≠ "labels" → k ≠ "workloadLabels" →
        k ≠ "restartPolicy" → k ≠ "imagePullSecrets" →
        GoMap.get handed k = GoMap.get data k) ∧
      (∀ k, (GoMap.get data k).isSome = true → (GoMap.get handed k).isSome = true) := by
  refine ⟨(shape w sch.ID data).1, ?_, rfl, ?_, ?_⟩
  · simp [Create, h]
  · intro k h1 h2 h3 h4 h5
    exact shape_get_frame w sch.ID data k h1 h2 h3 h4 h5
  · intro k hk
    exact shape_get_isSome w sch.ID data k hk

theorem Create_frame_witness :
    createTarget sampleStore cronPayload = (some cronJobSchema, some cronJobSchema.Store) ∧
    ∃ handed, Create sampleStore sampleWorld none cronPayload =
        Except.ok
          { record := (sampleWorld.reply
              (Call.create cronJobSchema.Store (some cronJobSchema) handed)).record
            err := (sampleWorld.reply
              (Call.create cronJobSchema.Store (some cronJobSchema) handed)).err
            calls := (shape sampleWorld cronJobSchema.ID cronPayload).2 ++
              [Call.create cronJobSchema.Store (some cronJobSchema) handed] } ∧
      handed = (shape sampleWorld cronJobSchema.ID cronPayload).1 ∧
      (∀ k, k ≠ "selector" → k ≠ "labels" → k ≠ "workloadLabels" →
        k ≠ "restartPolicy" → k ≠ "imagePullSecrets" →
        GoMap.get handed k = GoMap.get cronPayload k) ∧
      (∀ k, (GoMap.get cronPayload k).isSome = true →
        (GoMap.get handed k).isSome = true) :=
  ⟨by decide,
   Create_frame sampleStore sampleWorld none cronPayload cronJobSchema
     cronJobSchema.Store (by decide)⟩

/-! ## Create: the schema dereference -/

/-- C20: in a store built by `NewAggregateStore`, whatever the order in which
the field table is visited: when a schema whose ID equals `deployment`
ignoring case is registered, the schema and the store `Create` selects are
never nil, for every payload, and `Create` reaches the create call; when no
such schema is registered and the payload sets no hint field, the selected
schema and store are nil and `Create` ends in a nil dereference fault, not in
an error value. -/
theorem Create_dereference (schemas : List Schema) (fields : GoMap String)
    (hperm : fields.Perm (NewAggregateStore schemas).FieldToSchemaID)
    (w : World) (schema : Option Schema) (data : Record) :
    ((∃ s ∈ schemas, equalFold s.ID "deployment" = true) →
      ∃ sch ∈ schemas,
        createTarget (withFieldOrder (NewAggregateStore schemas) fields) data =
          (some sch, some sch.Store) ∧
        Create (withFieldOrder (NewAggregateStore schemas) fields) w schema data =
          Except.ok
            { record := (w.reply
                (Call.create sch.Store (some sch) (shape w sch.ID data).1)).record
              err := (w.reply
                (Call.create sch.Store (some sch) (shape w sch.ID data).1)).err
              calls := (shape w sch.ID data).2 ++
                [Call.create sch.Store (some sch) (shape w sch.ID data).1] }) ∧
    ((∀ s ∈ schemas, equalFold s.ID "deployment" = false) →
      (∀ s ∈ schemas, isSet data (s.ID ++ "Config") = false) →
      createTarget (withFieldOrder (NewAggregateStore schemas) fields) data =
        (none, none) ∧
      Create (withFieldOrder (NewAggregateStore schemas) fields) w schema data =
        Except.error Fault.nilDereference) := by
  have hlow : toLower "deployment" = "deployment" := by decide
  have hreg : ∀ k sch, lastWithKey schemas k = some sch →
      GoMap.get (NewAggregateStore schemas).Schemas k = some sch ∧
      GoMap.get (NewAggregateStore schemas).Stores k = some sch.Store := by
    intro k sch hsch
    refine ⟨by rw [(NewAggregateStore_tables schemas k).1, hsch], ?_⟩
    rw [(NewAggregateStore_tables schemas k).2, hsch]
    rfl
  refine ⟨?_, ?_⟩
  · rintro ⟨s, hs, hfold⟩
    have hk : toLower s.ID = "deployment" := by
      rw [← hlow]
      exact (equalFold_iff_toLower _ _).1 hfold
    have key : ∃ k sch, lastWithKey schemas k = some sch ∧
        createTarget (withFieldOrder (NewAggregateStore schemas) fields) data =
          (GoMap.get (NewAggregateStore schemas).Schemas k,
           GoMap.get (NewAggregateStore schemas).Stores k) := by
      cases hfh : firstHint data fields with
      | none =>
        obtain ⟨sch, hsch⟩ := lastWithKey_isSome hs
        rw [hk] at hsch
        exact ⟨"deployment", sch, hsch,
          by simp [createTarget, withFieldOrder, hfh, DeploymentType]⟩
      | some k =>
        obtain ⟨f, hf, _⟩ := firstHint_some hfh
        obtain ⟨s', hs', _, h2⟩ := fieldTable_mem ((hperm.mem_iff).1 hf)
        obtain ⟨sch, hsch⟩ := lastWithKey_isSome hs'
        rw [← h2] at hsch
        exact ⟨k, sch, hsch, by simp [createTarget, withFieldOrder, hfh]⟩
    obtain ⟨k, sch, hsch, ht⟩ := key
    obtain ⟨hS, hT⟩ := hreg k sch hsch
    rw [hS, hT] at ht
    refine ⟨sch, (lastWithKey_some hsch).1, ht, ?_⟩
    simp [Create, ht]
  · intro hno hunset
    have hfh : firstHint data fields = none := by
      apply firstHint_none
      intro e he
      obtain ⟨f, k⟩ := e
      obtain ⟨s, hs, h1, _⟩ := fieldTable_mem ((hperm.mem_iff).1 he)
      simpa [h1] using hunset s hs
    have hnone : lastWithKey schemas "deployment" = none := by
      cases h : lastWithKey schemas "deployment" with
      | none => rfl
      | some sch =>
        obtain ⟨h1, h2⟩ := lastWithKey_some h
        have : equalFold sch.ID "deployment" = true := by
          apply (equalFold_iff_toLower _ _).2
          rw [h2, hlow]
        rw [hno sch h1] at this
        exact absurd this (by decide)
    have ht : createTarget (withFieldOrder (NewAggregateStore schemas) fields) data =
        (none, none) := by
      simp [createTarget, withFieldOrder, hfh, DeploymentType,
        (NewAggregateStore_tables schemas "deployment").1,
        (NewAggregateStore_tables schemas "deployment").2, hnone]
    refine ⟨ht, ?_⟩
    simp [Create, ht]

theorem Create_dereference_witness :
    sampleStore.FieldToSchemaID.reverse.Perm
      (NewAggregateStore [deploymentSchema, jobSchema, cronJobSchema]).FieldToSchemaID ∧
    (∃ s ∈ [deploymentSchema, jobSchema, cronJobSchema],
      equalFold s.ID "deployment" = true) ∧
    (∃ sch ∈ [deploymentSchema, jobSchema, cronJobSchema],
      createTarget (withFieldOrder sampleStore sampleStore.FieldToSchemaID.reverse)
        webPayload = (some sch, some sch.Store) ∧
      Create (withFieldOrder sampleStore sampleStore.FieldToSchemaID.reverse)
        sampleWorld none webPayload =
        Except.ok
          { record := (sampleWorld.reply
              (Call.create sch.Store (some sch) (shape sampleWorld sch.ID webPayload).1)).record
            err := (sampleWorld.reply
              (Call.create sch.Store (some sch) (shape sampleWorld sch.ID webPayload).1)).err
            calls := (shape sampleWorld sch.ID webPayload).2 ++
              [Call.create sch.Store (some sch) (shape sampleWorld sch.ID webPayload).1] }) ∧
    (NewAggregateStore [jobSchema]).FieldToSchemaID.Perm
      (NewAggregateStore [jobSchema]).FieldToSchemaID ∧
    (∀ s ∈ [jobSchema], equalFold s.ID "deployment" = false) ∧
    (∀ s ∈ [jobSchema], isSet webPayload (s.ID ++ "Config") = false) ∧
    Create (withFieldOrder (NewAggregateStore [jobSchema])
        (NewAggregateStore [jobSchema]).FieldToSchemaID) sampleWorld none webPayload =
      Except.error Fault.nilDereference :=
  ⟨List.reverse_perm _, by decide,
   (Create_dereference [deploymentSchema, jobSchema, cronJobSchema]
      sampleStore.FieldToSchemaID.reverse (List.reverse_perm _) sampleWorld none
      webPayload).1 (by decide),
   List.Perm.refl _, by decide, by decide,
   ((Create_dereference [jobSchema] (NewAggregateStore [jobSchema]).FieldToSchemaID
      (List.Perm.refl _) sampleWorld none webPayload).2 (by decide) (by decide)).2⟩

/-! ## Fan-out: List -/

/-- C15, as the claim states it, fails: every backing collection of the sample
store returns its records without error, three in all, yet under a schedule
in which the caller's request context is cancelled and the first goroutine
takes the case `ctx.Done()` of its `select`, `List` returns the error of the
context and one record. -/
theorem aggregateList_cancelled_counterexample :
    (∀ e ∈ sampleStore.Stores, succeeded (backingList sampleStore sampleWorld e) = true) ∧
    (sampleStore.Stores.map
      (fun e => (recordsOf (backingList sampleStore sampleWorld e)).length)).sum = 3 ∧
    aggregateList sampleStore sampleWorld
      [ListChoice.cancel contextCanceled, ListChoice.advance 0, ListChoice.abandon 0,
       ListChoice.advance 1, ListChoice.advance 2, ListChoice.advance 1,
       ListChoice.advance 2, ListChoice.advance 1] =
      some ([[("name", Value.str "j1")]], some contextCanceled) :=
  ⟨by decide, by decide, rfl⟩

/-- C15, amended: while the caller's request context is not cancelled, `List`
returns under every schedule that lets the goroutines run (a run exists, no
run is longer than a bound, and a run with a goroutine left can always go on).
When no backing collection fails it returns no error and a permutation of all
the records of all backing collections, as many as the sum of their numbers,
with the records of each collection in their own order; when some backing
collection fails it returns an error, which is the error of one of the
backing collections. -/
theorem aggregateList_fan_in (a : AggregateStore) (w : World) :
    (∃ schedule res, (∀ c ∈ schedule, ListChoice.isCancel c = false) ∧
      aggregateList a w schedule = some res) ∧
    (∀ schedule s, listRun w (listStart a) schedule = some s →
      schedule.length ≤ (listStart a).fuel w ∧
      (s.allReturned = false → ∃ i s', listStep w s (ListChoice.advance i) = some s')) ∧
    (∀ schedule res err, (∀ c ∈ schedule, ListChoice.isCancel c = false) →
      aggregateList a w schedule = some (res, err) →
      (∀ e ∈ a.Stores, succeeded (backingList a w e) = true) →
      err = none ∧
      res.Perm (a.Stores.flatMap (fun e => recordsOf (backingList a w e))) ∧
      res.length = (a.Stores.map (fun e => (recordsOf (backingList a w e)).length)).sum ∧
      ∀ e ∈ a.Stores, (recordsOf (backingList a w e)).Sublist res) ∧
    (∀ schedule res err, (∀ c ∈ schedule, ListChoice.isCancel c = false) →
      aggregateList a w schedule = some (res, err) →
      (∃ e ∈ a.Stores, succeeded (backingList a w e) = false) →
      ∃ x, err = some x ∧ ∃ e ∈ a.Stores, backingList a w e = Except.error x) := by
  refine ⟨?_, ?_, ?_, ?_⟩
  · obtain ⟨schedule, s, hnc, hrun, hdone⟩ :=
      listRun_completes w ((listStart a).fuel w) (listStart a) (Nat.le_refl _)
    exact ⟨schedule, (s.result, s.err), hnc, by simp [aggregateList, hrun, hdone]⟩
  · intro schedule s hrun
    refine ⟨?_, listStep_progress w s⟩
    have := listRun_fuel hrun
    omega
  · intro schedule res err hnc hres hok
    obtain ⟨s, hrun, hdone, hr, he⟩ := aggregateList_some hres
    obtain ⟨herr, _, _, _, hperm, hsub⟩ :=
      listRun_okInv (listStart_okInv a w hok) hnc hrun
    have hkeys := (listRun_keys hrun).trans (listStart_keys a)
    have hret : ∀ t ∈ s.tasks, t.hasReturned = true := List.all_eq_true.1 hdone
    have hflat : s.tasks.flatMap (ListTask.sent w) =
        a.Stores.flatMap (fun e => recordsOf (backingList a w e)) := by
      rw [List.flatMap_congr (fun t ht => returned_sent (hret t ht)),
        ← List.flatMap_map ListTask.key (fun k => recordsOf (w.list k.1 k.2)), hkeys,
        List.flatMap_map]
      rfl
    have hp : res.Perm (a.Stores.flatMap (fun e => recordsOf (backingList a w e))) := by
      rw [← hr, ← hflat]
      exact hperm
    refine ⟨by rw [← he, herr], hp, ?_, ?_⟩
    · rw [hp.length_eq, List.length_flatMap]
      rfl
    · intro e hmem
      have hk : (e.2, GoMap.get a.Schemas e.1) ∈ s.tasks.map ListTask.key := by
        rw [hkeys]
        exact List.mem_map.2 ⟨e, hmem, rfl⟩
      obtain ⟨t, ht, htk⟩ := List.mem_map.1 hk
      have := hsub t ht
      rw [returned_sent (hret t ht), htk, hr] at this
      exact this
  · intro schedule res err hnc hres hfail
    obtain ⟨s, hrun, hdone, _, he⟩ := aggregateList_some hres
    obtain ⟨ha, hb, _, hd⟩ := listRun_errInv (listStart_errInv a w) hnc hrun
    have hkeys := (listRun_keys hrun).trans (listStart_keys a)
    have hret : ∀ t ∈ s.tasks, t.hasReturned = true := List.all_eq_true.1 hdone
    obtain ⟨e, hmem, hbad⟩ := hfail
    have hk : (e.2, GoMap.get a.Schemas e.1) ∈ s.tasks.map ListTask.key := by
      rw [hkeys]
      exact List.mem_map.2 ⟨e, hmem, rfl⟩
    obtain ⟨t, ht, htk⟩ := List.mem_map.1 hk
    have hsome : s.err.isSome = true := by
      obtain ⟨schema, store, pc⟩ := t
      simp only [ListTask.key, Prod.mk.injEq] at htk
      cases pc with
      | calling => exact absurd (hret _ ht) (by simp [ListTask.hasReturned])
      | sending data next => exact absurd (hret _ ht) (by simp [ListTask.hasReturned])
      | returned x =>
        cases x with
        | some x => exact ha _ ht x rfl
        | none =>
          have hc := hd _ ht
          simp only [ListTask.consistent] at hc
          obtain ⟨data, hdata⟩ := hc
          rw [htk.1, htk.2] at hdata
          simp [backingList, hdata, succeeded] at hbad
    cases hx : s.err with
    | none => simp [hx] at hsome
    | some x =>
      obtain ⟨k, hkm, hkx⟩ := hb x hx
      rw [hkeys] at hkm
      obtain ⟨e', he', hek⟩ := List.mem_map.1 hkm
      refine ⟨x, by rw [← he, hx], e', he', ?_⟩
      rw [← hek] at hkx
      exact hkx

theorem aggregateList_fan_in_witness :
    (∀ c ∈ [ListChoice.advance 0, ListChoice.advance 1, ListChoice.advance 2,
        ListChoice.advance 1, ListChoice.advance 0, ListChoice.advance 0,
        ListChoice.advance 2, ListChoice.advance 1, ListChoice.advance 0],
      ListChoice.isCancel c = false) ∧
    aggregateList sampleStore sampleWorld
      [ListChoice.advance 0, ListChoice.advance 1, ListChoice.advance 2,
       ListChoice.advance 1, ListChoice.advance 0, ListChoice.advance 0,
       ListChoice.advance 2, ListChoice.advance 1, ListChoice.advance 0] =
      some ([[("name", Value.str "j1")], [("name", Value.str "d1")],
        [("name", Value.str "d2")]], none) ∧
    (∀ e ∈ sampleStore.Stores, succeeded (backingList sampleStore sampleWorld e) = true) ∧
    [[("name", Value.str "j1")], [("name", Value.str "d1")],
      [("name", Value.str "d2")]].length =
      (sampleStore.Stores.map
        (fun e => (recordsOf (backingList sampleStore sampleWorld e)).length)).sum :=
  ⟨by decide, rfl, by decide,
   ((aggregateList_fan_in sampleStore sampleWorld).2.2.1
      [ListChoice.advance 0, ListChoice.advance 1, ListChoice.advance 2,
       ListChoice.advance 1, ListChoice.advance 0, ListChoice.advance 0,
       ListChoice.advance 2, ListChoice.advance 1, ListChoice.advance 0]
      [[("name", Value.str "j1")], [("name", Value.str "d1")], [("name", Value.str "d2")]]
      none (by decide) rfl (by decide)).2.2.1⟩

/-! ## Fan-out: Watch -/

/-- C16: `Watch` returns a stream and a nil error.  In every run of the
goroutines behind the stream, the stream is closed only when every goroutine
has returned, and once all have returned the closing step is enabled; a run
is bounded and a run to rest exists.  At rest (no step enabled) the reader has
received every event of every subscription, those of each subscription in
their order, and when every subscription ends the stream is closed.  A
backing collection that returns no stream and no error makes its goroutine
return nil without an event.  With two kinds, one whose stream ends at once
and one whose stream ends after three events, the stream yields exactly these
three events and is closed. -/
theorem Watch_merged_stream (a : AggregateStore) (w : World) :
    (Watch a w).2 = none ∧
    (∃ schedule s, watchRun w (Watch a w).1 schedule = some s ∧
      ∀ c, watchStep w s c = none) ∧
    (∀ schedule s, watchRun w (Watch a w).1 schedule = some s →
      schedule.length ≤ (Watch a w).1.fuel w ∧
      (s.closed = true → s.allReturned = true) ∧
      (s.allReturned = true → s.closed = false →
        watchStep w s WatchChoice.close =
          some { tasks := s.tasks, events := s.events, closed := true }) ∧
      ((∀ c, watchStep w s c = none) →
        s.events.Perm (a.Schemas.flatMap (fun e => eventsOf (backingWatch w e.2))) ∧
        (∀ e ∈ a.Schemas, (eventsOf (backingWatch w e.2)).Sublist s.events) ∧
        ((∀ e ∈ a.Schemas, subscriptionEnds (backingWatch w e.2) = true) →
          s.closed = true ∧ s.allReturned = true))) ∧
    (∀ t : WatchTask, t.pc = WatchPc.subscribing →
      backingWatch w t.schema = WatchReply.nothing →
      streamStore w t = some { pc := WatchPc.returned none, event := none } ∧
      eventsOf (backingWatch w t.schema) = []) ∧
    (∀ k1 s1 k2 s2 e1 e2 e3, a.Schemas = [(k1, s1), (k2, s2)] →
      backingWatch w s1 = WatchReply.stream [] true →
      backingWatch w s2 = WatchReply.stream [e1, e2, e3] true →
      ∀ schedule s, watchRun w (Watch a w).1 schedule = some s →
        (∀ c, watchStep w s c = none) →
        s.events = [e1, e2, e3] ∧ s.closed = true) := by
  have hstart : (watchStart a).tasks.map WatchTask.schema = a.Schemas.map Prod.snd := by
    simp [watchStart, List.map_map, Function.comp_def]
  have hrest : ∀ schedule s, watchRun w (watchStart a) schedule = some s →
      (∀ c, watchStep w s c = none) →
      s.events.Perm (a.Schemas.flatMap (fun e => eventsOf (backingWatch w e.2))) ∧
      (∀ e ∈ a.Schemas, (eventsOf (backingWatch w e.2)).Sublist s.events) ∧
      ((∀ e ∈ a.Schemas, subscriptionEnds (backingWatch w e.2) = true) →
        s.closed = true ∧ s.allReturned = true) := by
    intro schedule s hrun hq
    obtain ⟨hinv, _, hsch⟩ := watchRun_inv (watchStart_inv a w) hrun
    have hkeys := hsch.trans hstart
    have htask := watch_quiescent_task hinv hq
    have hflat : s.tasks.flatMap (WatchTask.relayed w) =
        a.Schemas.flatMap (fun e => eventsOf (backingWatch w e.2)) := by
      rw [List.flatMap_congr (fun t ht => (htask t ht).1),
        ← List.flatMap_map WatchTask.schema (fun sch => eventsOf (backingWatch w sch)),
        hkeys, List.flatMap_map]
    refine ⟨by rw [← hflat]; exact hinv.2.1, ?_, ?_⟩
    · intro e hmem
      have hk : e.2 ∈ s.tasks.map WatchTask.schema := by
        rw [hkeys]
        exact List.mem_map.2 ⟨e, hmem, rfl⟩
      obtain ⟨t, ht, htk⟩ := List.mem_map.1 hk
      have := hinv.2.2.1 t ht
      rw [(htask t ht).1, htk] at this
      exact this
    · intro hends
      have hall : s.allReturned = true := by
        apply List.all_eq_true.2
        intro t ht
        have hk : t.schema ∈ a.Schemas.map Prod.snd := by
          rw [← hkeys]
          exact List.mem_map.2 ⟨t, ht, rfl⟩
        obtain ⟨e, hmem, he⟩ := List.mem_map.1 hk
        apply (htask t ht).2
        rw [← he]
        exact hends e hmem
      refine ⟨?_, hall⟩
      have hc := hq WatchChoice.close
      cases hcl : s.closed with
      | true => rfl
      | false => simp [watchStep, hall, hcl] at hc
  refine ⟨rfl, ?_, ?_, ?_, ?_⟩
  · exact watchRun_quiesces w ((watchStart a).fuel w) (watchStart a) (watchStart_inv a w)
      (Nat.le_refl _)
  · intro schedule s hrun
    obtain ⟨hinv, hfuel, _⟩ := watchRun_inv (watchStart_inv a w) hrun
    refine ⟨?_, hinv.2.2.2, ?_, hrest schedule s hrun⟩
    · have : (Watch a w).1.fuel w = (watchStart a).fuel w := rfl
      omega
    · intro hall hcl
      simp [watchStep, hall, hcl]
  · intro t hpc hnothing
    obtain ⟨schema, pc⟩ := t
    simp only at hpc
    subst hpc
    simp only [backingWatch] at hnothing
    simp [streamStore, hnothing, backingWatch, eventsOf]
  · intro k1 s1 k2 s2 e1 e2 e3 hS h1 h2 schedule s hrun hq
    obtain ⟨hperm, hsub, hcl⟩ := hrest schedule s hrun hq
    have hlen : s.events.length = 3 := by
      rw [hperm.length_eq, hS]
      simp [List.flatMap_def, h1, h2, eventsOf]
    have hs2 := hsub (k2, s2) (by rw [hS]; simp)
    simp only [h2, eventsOf] at hs2
    refine ⟨(hs2.eq_of_length (by rw [hlen]; rfl)).symm, (hcl ?_).1⟩
    intro e hmem
    rw [hS] at hmem
    simp only [List.mem_cons, List.mem_singleton] at hmem
    rcases hmem with h | h | h
    · rw [h]
      simp [h1, subscriptionEnds]
    · rw [h]
      simp [h2, subscriptionEnds]
    · exact absurd h (List.not_mem_nil _)

theorem Watch_merged_stream_witness :
    watchRun sampleWorld (Watch sampleStore sampleWorld).1
      [WatchChoice.advance 0, WatchChoice.advance 1, WatchChoice.advance 0,
       WatchChoice.advance 2, WatchChoice.advance 1, WatchChoice.advance 0,
       WatchChoice.advance 0, WatchChoice.advance 0, WatchChoice.close] =
      some { tasks := [⟨deploymentSchema, WatchPc.returned (some disconnect)⟩,
                       ⟨jobSchema, WatchPc.returned (some disconnect)⟩,
                       ⟨cronJobSchema, WatchPc.returned none⟩]
             events := [[("name", Value.str "e1")], [("name", Value.str "e2")],
               [("name", Value.str "e3")]]
             closed := true } ∧
    9 ≤ (Watch sampleStore sampleWorld).1.fuel sampleWorld ∧
    WatchState.allReturned
      { tasks := [⟨deploymentSchema, WatchPc.returned (some disconnect)⟩,
                  ⟨jobSchema, WatchPc.returned (some disconnect)⟩,
                  ⟨cronJobSchema, WatchPc.returned none⟩]
        events := [[("name", Value.str "e1")], [("name", Value.str "e2")],
          [("name", Value.str "e3")]]
        closed := true } = true :=
  ⟨rfl,
   ((Watch_merged_stream sampleStore sampleWorld).2.2.1
      [WatchChoice.advance 0, WatchChoice.advance 1, WatchChoice.advance 0,
       WatchChoice.advance 2, WatchChoice.advance 1, WatchChoice.advance 0,
       WatchChoice.advance 0, WatchChoice.advance 0, WatchChoice.close]
      _ rfl).1,
   ((Watch_merged_stream sampleStore sampleWorld).2.2.1
      [WatchChoice.advance 0, WatchChoice.advance 1, WatchChoice.advance 0,
       WatchChoice.advance 2, WatchChoice.advance 1, WatchChoice.advance 0,
       WatchChoice.advance 0, WatchChoice.advance 0, WatchChoice.close]
      _ rfl).2.1 rfl⟩

end Workload
